import Mathlib

set_option maxRecDepth 10000

set_option linter.unnecessarySeqFocus false

/-!
Verification of `borsher`, a schema-driven Borsh binary serialization wrapper.

The development shallowly embeds:

* the schema tree built by the `BorshSchema` builders (`src/schema.ts` and the
  alternate generation of the same class with typed-array metadata),
* a model of the JavaScript runtime values the codec manipulates,
* the Borsh encode/decode engine.  The engine is the third-party `borsh`
  package, which is not part of this repository's sources; it is modelled from
  the specification (wire layout rules of the spec's encoder/decoder
  sections),
* the wrapper layer that is in the sources: input/output coercion for
  64/128-bit integers (`coerceInput` / `coerceOutput`), and the two
  post-decode typed-array reconstruction passes (`SchemaVisitor.visit` from
  `visitor.ts`, and `convertToTypedArrays` from the alternate schema file).

Modelling conventions:

* JavaScript numbers sitting in `f32`/`f64` positions are modelled by their
  IEEE-754 bit patterns (a `Nat` below `2^32` resp. `2^64`): the wire format
  is the identity on the bit pattern, which keeps the byte-level behaviour
  faithful while keeping floating point arithmetic out of the embedding.
* Strings are Lean strings, encoded through an explicit UTF-8 encoder.
* All recursive functions take an explicit fuel argument and are structurally
  recursive on it, so that the kernel can evaluate them on concrete inputs;
  the exported wrappers instantiate the fuel with the size of the schema,
  which the fuel-indexed theorems show is always sufficient.
-/

/-- Primitive type tags of the schema language (the runtime string tags of the
source, as a closed enumeration). -/
inductive PrimTag where
  | u8 | u16 | u32 | u64 | u128
  | i8 | i16 | i32 | i64 | i128
  | f32 | f64
  | bool | str
deriving DecidableEq, Repr

/-- The schema tree of the `borsh` package that all `BorshSchema` builders
construct: primitive tags, `{ option }`, `{ array: { type, len? } }`
(`len = none` is a Vec, `len = some n` a fixed array), `{ set }`, `{ map }`,
`{ struct }` and `{ enum }`.  Enum variants are one-field wrapper structs in
the source, so a variant is modelled as its name paired with the payload
schema. -/
inductive Schema where
  | prim (t : PrimTag)
  | option (inner : Schema)
  | arr (inner : Schema) (len : Option Nat)
  | set (inner : Schema)
  | map (key value : Schema)
  | struct (fields : List (String × Schema))
  | enum (variants : List (String × Schema))
deriving Repr

mutual

/-- Size of a schema tree, used as the fuel bound of the fuel-indexed
codec functions. -/
def schemaSize : Schema → Nat
  | .prim _ => 1
  | .option inner => schemaSize inner + 1
  | .arr inner _ => schemaSize inner + 1
  | .set inner => schemaSize inner + 1
  | .map k v => schemaSize k + schemaSize v + 1
  | .struct flds => schemaSizeList flds + 1
  | .enum vars => schemaSizeList vars + 1

/-- Total size of the schemas in a field/variant list. -/
def schemaSizeList : List (String × Schema) → Nat
  | [] => 0
  | (_, s) :: rest => schemaSize s + schemaSizeList rest + 1

end

/-- Model of the JavaScript values the codec manipulates.  `vnum` is a number
holding an integer, `vf32`/`vf64` are numbers in float positions modelled by
their bit patterns, `vbig` is a bigint, `vtyped t xs` is a typed array of
numeric kind `t` (`Uint16Array`, `BigInt64Array`, ...), `vobj` a plain object
with insertion-ordered fields, `vmap` a `Map`, `vset` a `Set`. -/
inductive Value where
  | vnum (n : Int)
  | vf32 (bits : Nat)
  | vf64 (bits : Nat)
  | vbig (n : Int)
  | vstr (s : String)
  | vbool (b : Bool)
  | vnull
  | varr (xs : List Value)
  | vtyped (t : PrimTag) (xs : List Value)
  | vset (xs : List Value)
  | vmap (ps : List (Value × Value))
  | vobj (fields : List (String × Value))
deriving Repr

/-- Encode-time failures (spec, error taxonomy). -/
inductive EncErr where
  | schemaMismatch
  | unknownEnumVariant
  | integerOutOfRange
  | duplicateSetElement
  | typeError
deriving DecidableEq, Repr

/-- Decode-time failures (spec, error taxonomy). -/
inductive DecErr where
  | unexpectedEndOfBuffer
  | invalidEnumDiscriminant
  | invalidOptionDiscriminant
  | invalidUtf8
deriving DecidableEq, Repr

/-- Little-endian byte encoding of `n` on `w` bytes. -/
def intLE : Nat → Nat → List Nat
  | 0, _ => []
  | w + 1, n => n % 256 :: intLE w (n / 256)

/-- Read `w` little-endian bytes as a natural number, returning the rest of
the buffer. -/
def readLE : Nat → List Nat → Except DecErr (Nat × List Nat)
  | 0, bs => .ok (0, bs)
  | _ + 1, [] => .error .unexpectedEndOfBuffer
  | w + 1, b :: bs => (readLE w bs).map (fun p => (b + 256 * p.1, p.2))

/-- Two's-complement reading of an unsigned `w`-byte value. -/
def toSigned (w : Nat) (n : Nat) : Int :=
  if 2 * n < 256 ^ w then (n : Int) else (n : Int) - (256 ^ w : Nat)

/-- UTF-8 encoding of a single code point (Lean `Char`s are valid Unicode
scalar values, which matches well-formed JavaScript strings). -/
def utf8Char (c : Char) : List Nat :=
  if c.toNat < 0x80 then [c.toNat]
  else if c.toNat < 0x800 then [0xC0 + c.toNat / 64, 0x80 + c.toNat % 64]
  else if c.toNat < 0x10000 then
    [0xE0 + c.toNat / 4096, 0x80 + c.toNat / 64 % 64, 0x80 + c.toNat % 64]
  else
    [0xF0 + c.toNat / 262144, 0x80 + c.toNat / 4096 % 64, 0x80 + c.toNat / 64 % 64,
      0x80 + c.toNat % 64]

/-- UTF-8 encoding of a string. -/
def utf8Enc (s : String) : List Nat := (s.data.map utf8Char).flatten

/-- Decode one UTF-8 code point, validating ranges (continuation bytes,
overlong forms, surrogates, the `0x110000` bound). -/
def utf8DecChar : List Nat → Option (Char × List Nat)
  | [] => none
  | b0 :: bs =>
    if b0 < 0x80 then some (Char.ofNat b0, bs)
    else if b0 < 0xC0 then none
    else if b0 < 0xE0 then
      match bs with
      | b1 :: bs' =>
        if 0x80 ≤ b1 && b1 < 0xC0 then
          if 0x80 ≤ (b0 - 0xC0) * 64 + (b1 - 0x80) then
            some (Char.ofNat ((b0 - 0xC0) * 64 + (b1 - 0x80)), bs')
          else none
        else none
      | [] => none
    else if b0 < 0xF0 then
      match bs with
      | b1 :: b2 :: bs' =>
        if (0x80 ≤ b1 && b1 < 0xC0) && (0x80 ≤ b2 && b2 < 0xC0) then
          if 0x800 ≤ (b0 - 0xE0) * 4096 + (b1 - 0x80) * 64 + (b2 - 0x80) &&
              !(0xD800 ≤ (b0 - 0xE0) * 4096 + (b1 - 0x80) * 64 + (b2 - 0x80) &&
                (b0 - 0xE0) * 4096 + (b1 - 0x80) * 64 + (b2 - 0x80) < 0xE000) then
            some (Char.ofNat ((b0 - 0xE0) * 4096 + (b1 - 0x80) * 64 + (b2 - 0x80)), bs')
          else none
        else none
      | _ => none
    else if b0 < 0xF8 then
      match bs with
      | b1 :: b2 :: b3 :: bs' =>
        if (0x80 ≤ b1 && b1 < 0xC0) && (0x80 ≤ b2 && b2 < 0xC0) && (0x80 ≤ b3 && b3 < 0xC0) then
          if 0x10000 ≤ (b0 - 0xF0) * 262144 + (b1 - 0x80) * 4096 + (b2 - 0x80) * 64 + (b3 - 0x80) &&
              (b0 - 0xF0) * 262144 + (b1 - 0x80) * 4096 + (b2 - 0x80) * 64 + (b3 - 0x80) <
                0x110000 then
            some
              (Char.ofNat ((b0 - 0xF0) * 262144 + (b1 - 0x80) * 4096 + (b2 - 0x80) * 64 +
                (b3 - 0x80)), bs')
          else none
        else none
      | _ => none
    else none

/-- Decode a whole byte list as UTF-8 (fuel-driven; the wrapper passes the
byte count, which bounds the number of code points). -/
def utf8DecAll : Nat → List Nat → Option (List Char)
  | _, [] => some []
  | 0, _ => none
  | fuel + 1, bs =>
    match utf8DecChar bs with
    | some (c, r) => (utf8DecAll fuel r).map (c :: ·)
    | none => none

/-- Decode a byte list as a string, consuming the entire list. -/
def utf8Dec (bs : List Nat) : Option String :=
  (utf8DecAll bs.length bs).map List.asString

/-- Digit-run parser for decimal strings. -/
def decDigitsAux : Nat → List Char → Option Nat
  | acc, [] => some acc
  | acc, c :: cs =>
    if '0' ≤ c && c ≤ '9' then decDigitsAux (acc * 10 + (c.toNat - 48)) cs else none

/-- Decimal-string to integer conversion, mirroring the JavaScript
`BigInt(string)` conversion on decimal inputs (the empty string converts to
zero in JavaScript; a bare minus sign or any non-digit is a failure). -/
def parseDec (s : String) : Option Int :=
  match s.data with
  | [] => some 0
  | '-' :: cs =>
    if cs.isEmpty then none else (decDigitsAux 0 cs).map (fun n => -(n : Int))
  | cs => (decDigitsAux 0 cs).map (fun n => (n : Int))

/-- The permissive 64/128-bit integer input forms: native bigint, integral
number, or decimal string (spec, encoder section). -/
def bigIntOf : Value → Option Int
  | .vbig n => some n
  | .vnum n => some n
  | .vstr s => parseDec s
  | _ => none

/-- Byte width of a primitive integer/float tag (zero for `bool`/`str`, which
are handled separately). -/
def primWidth : PrimTag → Nat
  | .u8 => 1 | .u16 => 2 | .u32 => 4 | .u64 => 8 | .u128 => 16
  | .i8 => 1 | .i16 => 2 | .i32 => 4 | .i64 => 8 | .i128 => 16
  | .f32 => 4 | .f64 => 8
  | .bool => 0 | .str => 0

/-- Modelled from the spec: encoding of a primitive value (`borsh` package
encoder, not in the repository sources).  Integers are fixed-width
little-endian, two's complement for signed; 64/128-bit integers accept the
permissive input forms; floats are the 4/8 raw bytes of the IEEE-754 bit
pattern; bool is one byte; strings are a u32 byte-length prefix plus UTF-8
bytes. -/
def encodePrim : PrimTag → Value → Except EncErr (List Nat)
  | .u8, .vnum n => if 0 ≤ n && n < 256 then .ok (intLE 1 n.toNat) else .error .integerOutOfRange
  | .u16, .vnum n => if 0 ≤ n && n < 65536 then .ok (intLE 2 n.toNat) else .error .integerOutOfRange
  | .u32, .vnum n => if 0 ≤ n && n < 4294967296 then .ok (intLE 4 n.toNat) else .error .integerOutOfRange
  | .i8, .vnum n => if -128 ≤ n && n < 128 then .ok (intLE 1 (n % 256).toNat) else .error .integerOutOfRange
  | .i16, .vnum n => if -32768 ≤ n && n < 32768 then .ok (intLE 2 (n % 65536).toNat) else .error .integerOutOfRange
  | .i32, .vnum n =>
    if -2147483648 ≤ n && n < 2147483648 then .ok (intLE 4 (n % 4294967296).toNat)
    else .error .integerOutOfRange
  | .u64, v =>
    match bigIntOf v with
    | some n => if 0 ≤ n && n < 2 ^ 64 then .ok (intLE 8 n.toNat) else .error .integerOutOfRange
    | none => .error .schemaMismatch
  | .u128, v =>
    match bigIntOf v with
    | some n => if 0 ≤ n && n < 2 ^ 128 then .ok (intLE 16 n.toNat) else .error .integerOutOfRange
    | none => .error .schemaMismatch
  | .i64, v =>
    match bigIntOf v with
    | some n =>
      if -(2 ^ 63) ≤ n && n < 2 ^ 63 then .ok (intLE 8 (n % (2 ^ 64 : Nat)).toNat)
      else .error .integerOutOfRange
    | none => .error .schemaMismatch
  | .i128, v =>
    match bigIntOf v with
    | some n =>
      if -(2 ^ 127) ≤ n && n < 2 ^ 127 then .ok (intLE 16 (n % (2 ^ 128 : Nat)).toNat)
      else .error .integerOutOfRange
    | none => .error .schemaMismatch
  | .f32, .vf32 bits => if bits < 2 ^ 32 then .ok (intLE 4 bits) else .error .schemaMismatch
  | .f64, .vf64 bits => if bits < 2 ^ 64 then .ok (intLE 8 bits) else .error .schemaMismatch
  | .bool, .vbool b => .ok [if b then 1 else 0]
  | .str, .vstr s => .ok (intLE 4 (utf8Enc s).length ++ utf8Enc s)
  | _, _ => .error .schemaMismatch

/-- Modelled from the spec: decoding of a primitive value.  64/128-bit
integers always decode to a bigint; other integers decode to numbers; floats
decode to the read bit pattern; bool reads one byte (zero is `false`,
anything else is truthy); strings read a u32 byte length and then that many
UTF-8 bytes. -/
def decodePrim : PrimTag → List Nat → Except DecErr (Value × List Nat)
  | .u8, bs => (readLE 1 bs).map (fun p => (.vnum p.1, p.2))
  | .u16, bs => (readLE 2 bs).map (fun p => (.vnum p.1, p.2))
  | .u32, bs => (readLE 4 bs).map (fun p => (.vnum p.1, p.2))
  | .i8, bs => (readLE 1 bs).map (fun p => (.vnum (toSigned 1 p.1), p.2))
  | .i16, bs => (readLE 2 bs).map (fun p => (.vnum (toSigned 2 p.1), p.2))
  | .i32, bs => (readLE 4 bs).map (fun p => (.vnum (toSigned 4 p.1), p.2))
  | .u64, bs => (readLE 8 bs).map (fun p => (.vbig p.1, p.2))
  | .u128, bs => (readLE 16 bs).map (fun p => (.vbig p.1, p.2))
  | .i64, bs => (readLE 8 bs).map (fun p => (.vbig (toSigned 8 p.1), p.2))
  | .i128, bs => (readLE 16 bs).map (fun p => (.vbig (toSigned 16 p.1), p.2))
  | .f32, bs => (readLE 4 bs).map (fun p => (.vf32 p.1, p.2))
  | .f64, bs => (readLE 8 bs).map (fun p => (.vf64 p.1, p.2))
  | .bool, bs =>
    match bs with
    | [] => .error .unexpectedEndOfBuffer
    | b :: r => .ok (.vbool (b != 0), r)
  | .str, bs => do
    let (n, r) ← readLE 4 bs
    if n ≤ r.length then
      match utf8Dec (r.take n) with
      | some s => .ok (.vstr s, r.drop n)
      | none => .error .invalidUtf8
    else .error .unexpectedEndOfBuffer

/-- Effectful map over a list, failing on the first failure. -/
def mapE (f : α → Except ε β) : List α → Except ε (List β)
  | [] => .ok []
  | x :: xs => do
    let y ← f x
    let ys ← mapE f xs
    .ok (y :: ys)

/-- All elements of a list pairwise distinct (boolean version). -/
def allDistinct [DecidableEq α] : List α → Bool
  | [] => true
  | x :: xs => decide (x ∉ xs) && allDistinct xs

/-- Field access on a plain-object value (`value[key]`, `none` standing for
the absent/undefined case). -/
def getField (k : String) : List (String × Value) → Option Value
  | [] => none
  | (k', v) :: rest => if k' = k then some v else getField k rest

/-- Index and payload schema of the variant with the given name, in
declaration order. -/
def findVariant (name : String) : List (String × Schema) → Option (Nat × Schema)
  | [] => none
  | (k, s) :: rest =>
    if k = name then some (0, s)
    else (findVariant name rest).map (fun p => (p.1 + 1, p.2))

/-- Struct-field encoding: each field's encoding concatenated in schema
declaration order, the field value looked up by name in the object. -/
def encFieldsE (e : Schema → Value → Except EncErr (List Nat)) :
    List (String × Schema) → List (String × Value) → Except EncErr (List Nat)
  | [], _ => .ok []
  | (k, s) :: rest, l =>
    match getField k l with
    | some fv => do
      let b ← e s fv
      let bs ← encFieldsE e rest l
      .ok (b ++ bs)
    | none => .error .schemaMismatch

/-- Modelled from the spec: the `borsh` package encoder.  Fuel-indexed,
structurally recursive on the fuel; the wrapper `Borsh.serialize` passes
the size of the schema, which the soundness theorems show is sufficient. -/
def encodeAux : Nat → Schema → Value → Except EncErr (List Nat)
  | 0, _, _ => .error .schemaMismatch
  | fuel + 1, s, v =>
    match s with
    | .prim t => encodePrim t v
    | .option inner =>
      match v with
      | .vnull => .ok [0]
      | v => (encodeAux fuel inner v).map (1 :: ·)
    | .arr inner none =>
      match v with
      | .varr xs => (mapE (encodeAux fuel inner) xs).map (fun bss => intLE 4 xs.length ++ bss.flatten)
      | .vtyped _ xs =>
        (mapE (encodeAux fuel inner) xs).map (fun bss => intLE 4 xs.length ++ bss.flatten)
      | _ => .error .schemaMismatch
    | .arr inner (some len) =>
      match v with
      | .varr xs =>
        if xs.length = len then (mapE (encodeAux fuel inner) xs).map List.flatten
        else .error .schemaMismatch
      | _ => .error .schemaMismatch
    | .set inner =>
      match v with
      | .vset xs => do
        let bss ← mapE (encodeAux fuel inner) xs
        if allDistinct bss then .ok (intLE 4 xs.length ++ bss.flatten)
        else .error .duplicateSetElement
      | _ => .error .schemaMismatch
    | .map ks vs =>
      match v with
      | .vmap ps => do
        let bss ← mapE (fun p => do
          let kb ← encodeAux fuel ks p.1
          let vb ← encodeAux fuel vs p.2
          pure (kb ++ vb)) ps
        .ok (intLE 4 ps.length ++ bss.flatten)
      | _ => .error .schemaMismatch
    | .struct flds =>
      match v with
      | .vobj l => encFieldsE (encodeAux fuel) flds l
      | _ => .error .schemaMismatch
    | .enum vars =>
      match v with
      | .vobj [(name, payload)] =>
        match findVariant name vars with
        | some (i, ps) => (encodeAux fuel ps payload).map ((i % 256) :: ·)
        | none => .error .unknownEnumVariant
      | _ => .error .schemaMismatch

/-- Decode `n` consecutive elements with the given element decoder. -/
def decListE (d : List Nat → Except DecErr (Value × List Nat)) :
    Nat → List Nat → Except DecErr (List Value × List Nat)
  | 0, bs => .ok ([], bs)
  | n + 1, bs => do
    let (v, r) ← d bs
    let (vs, r') ← decListE d n r
    .ok (v :: vs, r')

/-- Decode `n` consecutive key/value pairs. -/
def decPairsE (dk dv : List Nat → Except DecErr (Value × List Nat)) :
    Nat → List Nat → Except DecErr (List (Value × Value) × List Nat)
  | 0, bs => .ok ([], bs)
  | n + 1, bs => do
    let (k, r) ← dk bs
    let (v, r') ← dv r
    let (ps, r'') ← decPairsE dk dv n r'
    .ok ((k, v) :: ps, r'')

/-- Decode struct fields in declaration order. -/
def decFieldsE (d : Schema → List Nat → Except DecErr (Value × List Nat)) :
    List (String × Schema) → List Nat → Except DecErr (List (String × Value) × List Nat)
  | [], bs => .ok ([], bs)
  | (k, s) :: rest, bs => do
    let (v, r) ← d s bs
    let (l, r') ← decFieldsE d rest r
    .ok ((k, v) :: l, r')

/-- Modelled from the spec: the `borsh` package decoder, mirror image of the
encoder over a byte cursor, returning the decoded value and the unconsumed
rest of the buffer.  Truncation fails with `unexpectedEndOfBuffer`; an enum
discriminant at or beyond the variant count fails with
`invalidEnumDiscriminant`. -/
def decodeAux : Nat → Schema → List Nat → Except DecErr (Value × List Nat)
  | 0, _, _ => .error .unexpectedEndOfBuffer
  | fuel + 1, s, bs =>
    match s with
    | .prim t => decodePrim t bs
    | .option inner =>
      match bs with
      | [] => .error .unexpectedEndOfBuffer
      | 0 :: r => .ok (.vnull, r)
      | 1 :: r => decodeAux fuel inner r
      | _ :: _ => .error .invalidOptionDiscriminant
    | .arr inner none => do
      let (n, r) ← readLE 4 bs
      let (vs, r') ← decListE (decodeAux fuel inner) n r
      .ok (.varr vs, r')
    | .arr inner (some len) =>
      (decListE (decodeAux fuel inner) len bs).map (fun p => (.varr p.1, p.2))
    | .set inner => do
      let (n, r) ← readLE 4 bs
      let (vs, r') ← decListE (decodeAux fuel inner) n r
      .ok (.vset vs, r')
    | .map ks vs => do
      let (n, r) ← readLE 4 bs
      let (ps, r') ← decPairsE (decodeAux fuel ks) (decodeAux fuel vs) n r
      .ok (.vmap ps, r')
    | .struct flds =>
      (decFieldsE (decodeAux fuel) flds bs).map (fun p => (.vobj p.1, p.2))
    | .enum vars =>
      match bs with
      | [] => .error .unexpectedEndOfBuffer
      | b :: r =>
        match vars[b]? with
        | some (name, ps) =>
          (decodeAux fuel ps r).map (fun p => (.vobj [(name, p.1)], p.2))
        | none => .error .invalidEnumDiscriminant

/-- Modelled from the spec: `serialize` of the `borsh` package. -/
def Borsh.serialize (s : Schema) (v : Value) : Except EncErr (List Nat) :=
  encodeAux (schemaSize s) s v

/-- Modelled from the spec: the core decode primitive, returning the decoded
value and the unconsumed rest of the buffer. -/
def Borsh.decodeRun (s : Schema) (bs : List Nat) : Except DecErr (Value × List Nat) :=
  decodeAux (schemaSize s) s bs

/-- Modelled from the spec: `deserialize` of the `borsh` package; leftover
bytes after the schema-prescribed prefix are ignored. -/
def Borsh.deserialize (s : Schema) (bs : List Nat) : Except DecErr Value :=
  (Borsh.decodeRun s bs).map Prod.fst

/-! ## The `BorshSchema` builders of `src/schema.ts` -/

/-- The runtime check `schema === 'u64' || schema === 'u128' || schema === 'i64'
|| schema === 'i128'` of `coerceInput` / `coerceOutput`. -/
def isBig64or128 : Schema → Bool
  | .prim .u64 => true
  | .prim .u128 => true
  | .prim .i64 => true
  | .prim .i128 => true
  | _ => false

/-- Schema for String (`BorshSchema.String` in the source; primed here to keep
the Lean `String` type visible in later signatures). -/
def BorshSchema.String' : Schema := .prim .str

/-- Schema for u8. -/
def BorshSchema.u8 : Schema := .prim .u8

/-- Schema for u16. -/
def BorshSchema.u16 : Schema := .prim .u16

/-- Schema for u32. -/
def BorshSchema.u32 : Schema := .prim .u32

/-- Schema for u64. -/
def BorshSchema.u64 : Schema := .prim .u64

/-- Schema for u128. -/
def BorshSchema.u128 : Schema := .prim .u128

/-- Schema for i8. -/
def BorshSchema.i8 : Schema := .prim .i8

/-- Schema for i16. -/
def BorshSchema.i16 : Schema := .prim .i16

/-- Schema for i32. -/
def BorshSchema.i32 : Schema := .prim .i32

/-- Schema for i64. -/
def BorshSchema.i64 : Schema := .prim .i64

/-- Schema for i128. -/
def BorshSchema.i128 : Schema := .prim .i128

/-- Schema for f32. -/
def BorshSchema.f32 : Schema := .prim .f32

/-- Schema for f64. -/
def BorshSchema.f64 : Schema := .prim .f64

/-- Schema for bool. -/
def BorshSchema.bool : Schema := .prim .bool

/-- Schema for Unit (`{ struct: {} }`). -/
def BorshSchema.Unit : Schema := .struct []

/-- Schema for Option. -/
def BorshSchema.Option (inner : Schema) : Schema := .option inner

/-- Schema for a fixed-length Array (`{ array: { type, len } }`). -/
def BorshSchema.Array (inner : Schema) (length : Nat) : Schema :=
  .arr inner (some length)

/-- Schema for Vec (`{ array: { type } }`).  The source special-cases
`inner === BorshSchema.u8` purely for compile-time typing; the constructed
runtime schema is the same in both branches. -/
def BorshSchema.Vec (inner : Schema) : Schema := .arr inner none

/-- Schema for HashSet. -/
def BorshSchema.HashSet (inner : Schema) : Schema := .set inner

/-- Schema for HashMap. -/
def BorshSchema.HashMap (key value : Schema) : Schema := .map key value

/-- Schema for Struct: the insertion-ordered field mapping is modelled as an
ordered list of name/schema pairs. -/
def BorshSchema.Struct (fields : List (String × Schema)) : Schema :=
  .struct fields

/-- Schema for Enum: each variant is wrapped as a one-field struct in the
source, modelled as the ordered list of name/payload pairs. -/
def BorshSchema.Enum (variants : List (String × Schema)) : Schema :=
  .enum variants

/-- The `coerceInput` helper: for a top-level 64/128-bit integer schema the
value is passed through `BigInt(...)`, which accepts a bigint, an integral
number or a decimal string and throws a `TypeError`/`SyntaxError`
otherwise. -/
def BorshSchema.coerceInput (schema : Schema) (value : Value) : Except EncErr Value :=
  if isBig64or128 schema then
    match bigIntOf value with
    | some n => .ok (.vbig n)
    | none => .error .typeError
  else .ok value

/-- The `coerceOutput` helper: for a top-level 64/128-bit integer schema the
decoded value is passed through `BigInt(...)` (the decoded value is already a
bigint, so this is the identity on reachable inputs). -/
def BorshSchema.coerceOutput (schema : Schema) (value : Value) : Value :=
  if isBig64or128 schema then
    match bigIntOf value with
    | some n => .vbig n
    | none => value
  else value

/-- `BorshSchema.serialize`: coerce the input, then run the engine. -/
def BorshSchema.serialize (schema : Schema) (value : Value) : Except EncErr (List Nat) := do
  let coercedValue ← BorshSchema.coerceInput schema value
  Borsh.serialize schema coercedValue

/-- `BorshSchema.deserialize`: run the engine, then coerce the output.  This
generation of the class applies no typed-array reconstruction. -/
def BorshSchema.deserialize (schema : Schema) (buffer : List Nat) : Except DecErr Value :=
  (Borsh.deserialize schema buffer).map (BorshSchema.coerceOutput schema)

/-! ## Typed-array element conversion

Shared model of the typed-array constructors (`new Uint16Array(arr)`,
`new BigInt64Array(arr)`, ...) that both post-decode passes invoke. -/

/-- Wrap an integer to the unsigned range of a `w`-byte element. -/
def wrapU (w : Nat) (n : Int) : Int := n.emod ((2 : Int) ^ (8 * w))

/-- Wrap an integer to the two's-complement signed range of a `w`-byte
element. -/
def wrapI (w : Nat) (n : Int) : Int := toSigned w (n.emod ((2 : Int) ^ (8 * w))).toNat

/-- Element coercion of the unsigned integer typed-array constructors: a
bigint element makes the constructor throw a `TypeError`; numbers are stored
wrapped to the element width; booleans and `null` coerce to 0/1; the
remaining shapes coerce through `NaN`, which integer arrays store as 0 (none
of those shapes is reachable from decoded values). -/
def convElemU (w : Nat) : Value → Except String Value
  | .vnum n => .ok (.vnum (wrapU w n))
  | .vbig _ => .error "TypeError"
  | .vbool b => .ok (.vnum (if b then 1 else 0))
  | .vnull => .ok (.vnum 0)
  | _ => .ok (.vnum 0)

/-- Element coercion of the signed integer typed-array constructors (same
rules as `convElemU`, stored as two's complement). -/
def convElemI (w : Nat) : Value → Except String Value
  | .vnum n => .ok (.vnum (wrapI w n))
  | .vbig _ => .error "TypeError"
  | .vbool b => .ok (.vnum (if b then 1 else 0))
  | .vnull => .ok (.vnum 0)
  | _ => .ok (.vnum 0)

/-- Element coercion of `BigInt64Array`: bigints are stored wrapped to 64
bits; a number element makes the constructor throw a `TypeError`; booleans
convert to `0n`/`1n`; decimal strings parse; everything else throws. -/
def convElemBig : Value → Except String Value
  | .vbig n => .ok (.vbig (wrapI 8 n))
  | .vbool b => .ok (.vbig (if b then 1 else 0))
  | .vstr s =>
    match parseDec s with
    | some n => .ok (.vbig (wrapI 8 n))
    | none => .error "SyntaxError"
  | _ => .error "TypeError"

/-- Element coercion of `Float32Array`/`Float64Array`: a bigint element
throws; float bit patterns of the matching width (the only shape reachable
from decoded values) are stored unchanged; other shapes are kept as they are
in this model. -/
def convElemF : Value → Except String Value
  | .vbig _ => .error "TypeError"
  | x => .ok x

/-- The element conversion of the `TYPE_CONVERTERS` table, per numeric
kind. -/
def convElem : PrimTag → Value → Except String Value
  | .u8, x => convElemU 1 x
  | .u16, x => convElemU 2 x
  | .u32, x => convElemU 4 x
  | .i8, x => convElemI 1 x
  | .i16, x => convElemI 2 x
  | .i32, x => convElemI 4 x
  | .i64, x => convElemBig x
  | .f32, x => convElemF x
  | .f64, x => convElemF x
  | _, x => .ok x

/-- Membership of the `TYPE_CONVERTERS` table: exactly the nine numeric kinds
`u8, u16, u32, i8, i16, i32, i64, f32, f64` have a typed-array converter
(`u64`, `u128` and `i128` have none). -/
def isConverterKind : PrimTag → Bool
  | .u8 | .u16 | .u32 | .i8 | .i16 | .i32 | .i64 | .f32 | .f64 => true
  | _ => false

/-! ## The `SchemaVisitor` of `src/visitor.ts` -/

/-- The `isVecSchema` type guard: an `array` schema without `len` whose
element type is a primitive string tag. -/
def isVecPrim : Schema → Bool
  | .arr (.prim _) none => true
  | _ => false

/-- The `getVecElementType` helper: element tag of a Vec-of-primitive
schema. -/
def vecElementType : Schema → Option PrimTag
  | .arr (.prim t) none => some t
  | _ => none

/-- The JavaScript test `typeof value === "object" && value !== null`
(arrays, typed arrays, `Map`s and `Set`s are objects too). -/
def jsObjLike : Value → Bool
  | .vobj _ => true
  | .varr _ => true
  | .vset _ => true
  | .vmap _ => true
  | .vtyped _ _ => true
  | _ => false

/-- Property access `value[key]` as used when a struct schema is walked:
plain objects yield the field or `undefined`; on other object shapes a field
name is not an own property (ignoring exotic properties such as an array's
`length`), and non-objects are guarded before access. -/
def propOf (v : Value) (k : String) : Value :=
  match v with
  | .vobj l => (getField k l).getD .vnull
  | _ => .vnull

/-- Entries of a value as `Object.entries` sees it when the enum cases ask
for the first entry; only plain objects contribute recognizable variant
names (an array's index entries never match a variant, giving the same
pass-through result). -/
def entriesOf : Value → List (String × Value)
  | .vobj l => l
  | _ => []

/-- The visitor context: the optional `typedArrayType` tag. -/
def visitCtxOf (s : Schema) : Option PrimTag :=
  if isVecPrim s then vecElementType s else none

/-- `SchemaVisitor.visit`, fuel-indexed.  The result is an `Except` because
the typed-array constructors can throw on elements of the wrong numeric
class.  Mirrors the dispatch of the source: `null`/undefined and primitive
schemas pass through, then struct/array/map/enum are visited, and any other
schema shape (option, set) passes through. -/
def visitAux : Nat → Value → Schema → Option PrimTag → Except String Value
  | 0, v, _, _ => .ok v
  | fuel + 1, v, s, ctx =>
    match v with
    | .vnull => .ok .vnull
    | v =>
      match s with
      | .prim _ => .ok v
      | .struct flds =>
        if jsObjLike v then
          (mapE (fun p =>
            (visitAux fuel (propOf v p.1) p.2 (visitCtxOf p.2)).map (fun w => (p.1, w))) flds).map
            .vobj
        else .ok v
      | .arr inner len =>
        match v with
        | .varr xs =>
          match len, ctx with
          | none, some t =>
            if isConverterKind t then (mapE (convElem t) xs).map (.vtyped t)
            else (mapE (fun x => visitAux fuel x inner (visitCtxOf inner)) xs).map .varr
          | _, _ => (mapE (fun x => visitAux fuel x inner (visitCtxOf inner)) xs).map .varr
        | _ => .ok v
      | .map ks vs =>
        match v with
        | .vmap ps =>
          (mapE (fun p => do
            let k ← visitAux fuel p.1 ks none
            let w ← visitAux fuel p.2 vs (visitCtxOf vs)
            pure (k, w)) ps).map .vmap
        | _ => .ok v
      | .enum vars =>
        if jsObjLike v then
          match entriesOf v with
          | [] => .ok v
          | (name, pv) :: _ =>
            match vars.find? (fun q => q.1 = name) with
            | some (_, vsch) =>
              (visitAux fuel pv vsch (visitCtxOf vsch)).map (fun w => .vobj [(name, w)])
            | none => .ok v
        else .ok v
      | _ => .ok v

/-- `SchemaVisitor.visit` with an explicit context argument (the source's
optional third parameter). -/
def SchemaVisitor.visit (value : Value) (schema : Schema) (ctx : Option PrimTag) :
    Except String Value :=
  visitAux (schemaSize schema) value schema ctx

/-! ## The alternate `BorshSchema` generation (unnamed source file)

This generation records a `_typedArrayType` tag on `Vec` schemas and applies
`convertToTypedArrays` inside `deserialize`. -/

/-- The `switch` inside the alternate `Vec`: the recorded typed-array kind
for the nine recognized numeric primitive element types; every other element
type (including `u64`, `u128`, `i128`, strings and composites) records
nothing. -/
def vecTypedArrayType : Schema → Option PrimTag
  | .prim .u8 => some .u8
  | .prim .u16 => some .u16
  | .prim .u32 => some .u32
  | .prim .i8 => some .i8
  | .prim .i16 => some .i16
  | .prim .i32 => some .i32
  | .prim .i64 => some .i64
  | .prim .f32 => some .f32
  | .prim .f64 => some .f64
  | _ => none

/-- The alternate `BorshSchema` class: the underlying schema plus the
optional `_typedArrayType` metadata. -/
structure BorshSchemaP0 where
  schema : Schema
  typedArrayType : Option PrimTag
deriving Repr

/-- The `switch` body of `convertToTypedArrays` for an array value when
`_typedArrayType` is set: the nine converter kinds build the matching typed
array (element coercion as in the constructors; the throwing mixed-class
cases are unreachable from decoded values and kept unchanged here), and the
`default` branch returns the value unchanged. -/
def convP0Elems (t : PrimTag) (xs : List Value) : Value :=
  if isConverterKind t then
    .vtyped t (xs.map (fun x =>
      match convElem t x with
      | .ok y => y
      | .error _ => x))
  else .varr xs

/-- `convertToTypedArrays`, fuel-indexed.  The first argument is the
receiver's `_typedArrayType` (retained by the plain `this.convertToTypedArrays`
recursive calls, replaced by a temporary schema's tag at Vec-typed struct
fields, map values and enum payloads, exactly as in the source). -/
def convertAuxP0 : Nat → Option PrimTag → Value → Schema → Value
  | 0, _, v, _ => v
  | fuel + 1, tat, v, s =>
    match v, tat with
    | .vnull, _ => .vnull
    | .varr xs, some t => convP0Elems t xs
    | v, tat =>
      match s with
      | .struct flds =>
        if jsObjLike v then
          .vobj (flds.map (fun p =>
            let fv := propOf v p.1
            match p.2 with
            | .arr (.prim t') none => (p.1, convertAuxP0 fuel (some t') fv p.2)
            | _ => (p.1, convertAuxP0 fuel tat fv p.2)))
        else v
      | .arr inner _ =>
        match v with
        | .varr xs => .varr (xs.map (fun x => convertAuxP0 fuel tat x inner))
        | _ => v
      | .map ks vs =>
        match v with
        | .vmap ps =>
          .vmap (ps.map (fun p =>
            (convertAuxP0 fuel tat p.1 ks,
              match vs with
              | .arr (.prim t') none => convertAuxP0 fuel (some t') p.2 vs
              | _ => convertAuxP0 fuel tat p.2 vs)))
        | _ => v
      | .enum vars =>
        if jsObjLike v then
          match entriesOf v with
          | [] => v
          | (name, pv) :: _ =>
            match vars.find? (fun q => q.1 = name) with
            | some (_, vsch) =>
              match vsch with
              | .arr (.prim t') none => .vobj [(name, convertAuxP0 fuel (some t') pv vsch)]
              | _ => .vobj [(name, convertAuxP0 fuel tat pv vsch)]
            | none => v
        else v
      | _ => v

/-- Schema for u8 (alternate generation). -/
def BorshSchemaP0.u8 : BorshSchemaP0 := ⟨.prim .u8, none⟩

/-- Schema for u16 (alternate generation). -/
def BorshSchemaP0.u16 : BorshSchemaP0 := ⟨.prim .u16, none⟩

/-- Schema for u32 (alternate generation). -/
def BorshSchemaP0.u32 : BorshSchemaP0 := ⟨.prim .u32, none⟩

/-- Schema for u64 (alternate generation). -/
def BorshSchemaP0.u64 : BorshSchemaP0 := ⟨.prim .u64, none⟩

/-- Schema for u128 (alternate generation). -/
def BorshSchemaP0.u128 : BorshSchemaP0 := ⟨.prim .u128, none⟩

/-- Schema for i8 (alternate generation). -/
def BorshSchemaP0.i8 : BorshSchemaP0 := ⟨.prim .i8, none⟩

/-- Schema for i16 (alternate generation). -/
def BorshSchemaP0.i16 : BorshSchemaP0 := ⟨.prim .i16, none⟩

/-- Schema for i32 (alternate generation). -/
def BorshSchemaP0.i32 : BorshSchemaP0 := ⟨.prim .i32, none⟩

/-- Schema for i64 (alternate generation). -/
def BorshSchemaP0.i64 : BorshSchemaP0 := ⟨.prim .i64, none⟩

/-- Schema for i128 (alternate generation). -/
def BorshSchemaP0.i128 : BorshSchemaP0 := ⟨.prim .i128, none⟩

/-- Schema for f32 (alternate generation). -/
def BorshSchemaP0.f32 : BorshSchemaP0 := ⟨.prim .f32, none⟩

/-- Schema for f64 (alternate generation). -/
def BorshSchemaP0.f64 : BorshSchemaP0 := ⟨.prim .f64, none⟩

/-- Schema for bool (alternate generation). -/
def BorshSchemaP0.bool : BorshSchemaP0 := ⟨.prim .bool, none⟩

/-- Schema for String (alternate generation). -/
def BorshSchemaP0.String' : BorshSchemaP0 := ⟨.prim .str, none⟩

/-- Schema for Unit (alternate generation). -/
def BorshSchemaP0.Unit : BorshSchemaP0 := ⟨.struct [], none⟩

/-- Schema for Option (alternate generation). -/
def BorshSchemaP0.Option (inner : BorshSchemaP0) : BorshSchemaP0 :=
  ⟨.option inner.schema, none⟩

/-- Schema for a fixed-length Array (alternate generation). -/
def BorshSchemaP0.Array (inner : BorshSchemaP0) (length : Nat) : BorshSchemaP0 :=
  ⟨.arr inner.schema (some length), none⟩

/-- Schema for Vec (alternate generation): records the typed-array kind when
the element schema is one of the nine recognized numeric primitives. -/
def BorshSchemaP0.Vec (inner : BorshSchemaP0) : BorshSchemaP0 :=
  ⟨.arr inner.schema none, vecTypedArrayType inner.schema⟩

/-- Schema for HashSet (alternate generation). -/
def BorshSchemaP0.HashSet (inner : BorshSchemaP0) : BorshSchemaP0 :=
  ⟨.set inner.schema, none⟩

/-- Schema for HashMap (alternate generation). -/
def BorshSchemaP0.HashMap (key value : BorshSchemaP0) : BorshSchemaP0 :=
  ⟨.map key.schema value.schema, none⟩

/-- Schema for Struct (alternate generation). -/
def BorshSchemaP0.Struct (fields : List (String × BorshSchemaP0)) : BorshSchemaP0 :=
  ⟨.struct (fields.map (fun p => (p.1, p.2.schema))), none⟩

/-- Schema for Enum (alternate generation). -/
def BorshSchemaP0.Enum (variants : List (String × BorshSchemaP0)) : BorshSchemaP0 :=
  ⟨.enum (variants.map (fun p => (p.1, p.2.schema))), none⟩

/-- `serialize` of the alternate generation (no input coercion; the engine
itself accepts the permissive 64/128-bit integer forms). -/
def BorshSchemaP0.serialize (sp : BorshSchemaP0) (value : Value) : Except EncErr (List Nat) :=
  Borsh.serialize sp.schema value

/-- `deserialize` of the alternate generation: run the engine, then apply
`convertToTypedArrays` with the receiver's `_typedArrayType` and schema. -/
def BorshSchemaP0.deserialize (sp : BorshSchemaP0) (buffer : List Nat) : Except DecErr Value :=
  (Borsh.deserialize sp.schema buffer).map
    (fun v => convertAuxP0 (schemaSize sp.schema) sp.typedArrayType v sp.schema)

/-! ## Well-formed values, the canonical decoded form, observational equality -/

deriving instance DecidableEq for Except

/-- Well-formedness of a primitive value: the value shapes and ranges the
encoder accepts (64/128-bit integers in any permissive form, floats as bit
patterns, strings whose UTF-8 byte length fits the u32 prefix). -/
def wfPrim : PrimTag → Value → Bool
  | .u8, .vnum n => decide (0 ≤ n ∧ n < 256)
  | .u16, .vnum n => decide (0 ≤ n ∧ n < 65536)
  | .u32, .vnum n => decide (0 ≤ n ∧ n < 4294967296)
  | .i8, .vnum n => decide (-128 ≤ n ∧ n < 128)
  | .i16, .vnum n => decide (-32768 ≤ n ∧ n < 32768)
  | .i32, .vnum n => decide (-2147483648 ≤ n ∧ n < 2147483648)
  | .u64, v =>
    match bigIntOf v with
    | some n => decide (0 ≤ n ∧ n < 2 ^ 64)
    | none => false
  | .u128, v =>
    match bigIntOf v with
    | some n => decide (0 ≤ n ∧ n < 2 ^ 128)
    | none => false
  | .i64, v =>
    match bigIntOf v with
    | some n => decide (-(2 ^ 63) ≤ n ∧ n < 2 ^ 63)
    | none => false
  | .i128, v =>
    match bigIntOf v with
    | some n => decide (-(2 ^ 127) ≤ n ∧ n < 2 ^ 127)
    | none => false
  | .f32, .vf32 b => decide (b < 2 ^ 32)
  | .f64, .vf64 b => decide (b < 2 ^ 64)
  | .bool, .vbool _ => true
  | .str, .vstr s => decide ((utf8Enc s).length < 2 ^ 32)
  | _, _ => false

/-- Pairwise well-formedness of struct fields: the object carries exactly the
schema's fields, in declaration order. -/
def wfFields (wf : Schema → Value → Bool) :
    List (String × Schema) → List (String × Value) → Bool
  | [], [] => true
  | (k, s) :: rest, (k', v) :: l => decide (k = k') && wf s v && wfFields wf rest l
  | _, _ => false

/-- Well-formedness of a value for a schema (fuel-indexed).  This captures
the shape compatibility the spec demands of encoder inputs, restricted to
what a JavaScript caller can faithfully present: object fields in schema
declaration order with no extras, `Option` never wrapping `null`, set
elements and map keys pairwise distinct as borsh values (their canonical
encodings differ; a JavaScript `Set`/`Map` cannot hold duplicates, and
colliding encodings would not survive a round trip), element counts below
`2 ^ 32` (the u32 count prefix), and at most 256 enum variants (the one-byte
discriminant). -/
def WFaux : Nat → Schema → Value → Bool
  | 0, _, _ => false
  | fuel + 1, s, v =>
    match s with
    | .prim t => wfPrim t v
    | .option inner =>
      match v with
      | .vnull => true
      | v => WFaux fuel inner v
    | .arr inner none =>
      match v with
      | .varr xs => decide (xs.length < 2 ^ 32) && xs.all (WFaux fuel inner)
      | .vtyped _ xs => decide (xs.length < 2 ^ 32) && xs.all (WFaux fuel inner)
      | _ => false
    | .arr inner (some len) =>
      match v with
      | .varr xs => decide (xs.length = len) && xs.all (WFaux fuel inner)
      | _ => false
    | .set inner =>
      match v with
      | .vset xs =>
        decide (xs.length < 2 ^ 32) && xs.all (WFaux fuel inner) &&
          allDistinct (xs.map (Borsh.serialize inner))
      | _ => false
    | .map ks vs =>
      match v with
      | .vmap ps =>
        decide (ps.length < 2 ^ 32) &&
          ps.all (fun p => WFaux fuel ks p.1 && WFaux fuel vs p.2) &&
          allDistinct (ps.map (fun p => Borsh.serialize ks p.1))
      | _ => false
    | .struct flds =>
      match v with
      | .vobj l => allDistinct (flds.map Prod.fst) && wfFields (WFaux fuel) flds l
      | _ => false
    | .enum vars =>
      match v with
      | .vobj [(name, payload)] =>
        decide (vars.length ≤ 256) &&
          match findVariant name vars with
          | some p => WFaux fuel p.2 payload
          | none => false
      | _ => false

/-- Well-formedness of a value for a schema. -/
def WF (s : Schema) (v : Value) : Bool := WFaux (schemaSize s) s v

/-- Normalization of struct fields to their decoded form. -/
def normFields (nm : Schema → Value → Value) :
    List (String × Schema) → List (String × Value) → List (String × Value)
  | [], _ => []
  | (k, s) :: rest, l => (k, nm s ((getField k l).getD .vnull)) :: normFields nm rest l

/-- The canonical decoded form of a well-formed value (fuel-indexed):
permissive 64/128-bit integer inputs narrow to bigints, typed arrays decode
as plain arrays, and composites normalize pointwise.  This is exactly what
the raw engine decode returns for the value's encoding. -/
def normAux : Nat → Schema → Value → Value
  | 0, _, v => v
  | fuel + 1, s, v =>
    match s with
    | .prim .u64 => .vbig ((bigIntOf v).getD 0)
    | .prim .u128 => .vbig ((bigIntOf v).getD 0)
    | .prim .i64 => .vbig ((bigIntOf v).getD 0)
    | .prim .i128 => .vbig ((bigIntOf v).getD 0)
    | .prim _ => v
    | .option inner =>
      match v with
      | .vnull => .vnull
      | v => normAux fuel inner v
    | .arr inner _ =>
      match v with
      | .varr xs => .varr (xs.map (normAux fuel inner))
      | .vtyped _ xs => .varr (xs.map (normAux fuel inner))
      | v => v
    | .set inner =>
      match v with
      | .vset xs => .vset (xs.map (normAux fuel inner))
      | v => v
    | .map ks vs =>
      match v with
      | .vmap ps => .vmap (ps.map (fun p => (normAux fuel ks p.1, normAux fuel vs p.2)))
      | v => v
    | .struct flds =>
      match v with
      | .vobj l => .vobj (normFields (normAux fuel) flds l)
      | v => v
    | .enum vars =>
      match v with
      | .vobj [(name, payload)] =>
        match findVariant name vars with
        | some p => .vobj [(name, normAux fuel p.2 payload)]
        | none => v
      | v => v

/-- The canonical decoded form of a well-formed value. -/
def norm (s : Schema) (v : Value) : Value := normAux (schemaSize s) s v

mutual

/-- Size of a value tree (fuel bound for value-directed recursion). -/
def valueSize : Value → Nat
  | .varr xs => valueSizeL xs + 1
  | .vtyped _ xs => valueSizeL xs + 1
  | .vset xs => valueSizeL xs + 1
  | .vmap ps => valueSizeP ps + 1
  | .vobj l => valueSizeF l + 1
  | _ => 1

/-- Total size of a list of values. -/
def valueSizeL : List Value → Nat
  | [] => 0
  | x :: xs => valueSize x + valueSizeL xs + 1

/-- Total size of a list of value pairs. -/
def valueSizeP : List (Value × Value) → Nat
  | [] => 0
  | p :: ps => valueSize p.1 + valueSize p.2 + valueSizeP ps + 1

/-- Total size of a list of named values. -/
def valueSizeF : List (String × Value) → Nat
  | [] => 0
  | p :: l => valueSize p.2 + valueSizeF l + 1

end

/-- Pointwise comparison of two value lists. -/
def obsEqL (eq2 : Value → Value → Bool) : List Value → List Value → Bool
  | [], [] => true
  | x :: xs, y :: ys => eq2 x y && obsEqL eq2 xs ys
  | _, _ => false

/-- Pointwise comparison of two pair lists. -/
def obsEqP (eq2 : Value → Value → Bool) : List (Value × Value) → List (Value × Value) → Bool
  | [], [] => true
  | p :: ps, q :: qs => eq2 p.1 q.1 && eq2 p.2 q.2 && obsEqP eq2 ps qs
  | _, _ => false

/-- Pointwise comparison of two field lists (names must agree). -/
def obsEqF (eq2 : Value → Value → Bool) :
    List (String × Value) → List (String × Value) → Bool
  | [], [] => true
  | p :: l, q :: m => decide (p.1 = q.1) && eq2 p.2 q.2 && obsEqF eq2 l m
  | _, _ => false

/-- Observational equality up to exactly the two representation changes the
round-trip property allows: a permissive 64/128-bit integer input (integral
number or decimal string) may face the bigint output form, and a typed array
may face a plain array of the same elements (the typed-array upgrade on
decode, or its inverse for typed-array inputs).  Everything else must agree
structurally, pointwise. -/
def obsEqAux : Nat → Value → Value → Bool
  | 0, _, _ => false
  | fuel + 1, a, b =>
    match a, b with
    | .vnum n, .vnum m => decide (n = m)
    | .vnum n, .vbig m => decide (n = m)
    | .vstr s, .vbig m => decide (parseDec s = some m)
    | .vbig n, .vbig m => decide (n = m)
    | .vstr s, .vstr s' => decide (s = s')
    | .vf32 x, .vf32 y => decide (x = y)
    | .vf64 x, .vf64 y => decide (x = y)
    | .vbool x, .vbool y => decide (x = y)
    | .vnull, .vnull => true
    | .varr xs, .varr ys => obsEqL (obsEqAux fuel) xs ys
    | .varr xs, .vtyped _ ys => obsEqL (obsEqAux fuel) xs ys
    | .vtyped _ xs, .varr ys => obsEqL (obsEqAux fuel) xs ys
    | .vtyped t xs, .vtyped t' ys => decide (t = t') && obsEqL (obsEqAux fuel) xs ys
    | .vset xs, .vset ys => obsEqL (obsEqAux fuel) xs ys
    | .vmap ps, .vmap qs => obsEqP (obsEqAux fuel) ps qs
    | .vobj l, .vobj m => obsEqF (obsEqAux fuel) l m
    | _, _ => false

/-- Observational equality of two values (see `obsEqAux`). -/
def obsEq (a b : Value) : Bool := obsEqAux (valueSize a) a b

/-- The decoded form of a well-formed primitive value: 64/128-bit integers
become bigints, everything else keeps its representation. -/
def normPrim : PrimTag → Value → Value
  | .u64, v => .vbig ((bigIntOf v).getD 0)
  | .u128, v => .vbig ((bigIntOf v).getD 0)
  | .i64, v => .vbig ((bigIntOf v).getD 0)
  | .i128, v => .vbig ((bigIntOf v).getD 0)
  | _, v => v

/-! ## Basic lemmas -/

theorem schemaSize_pos (s : Schema) : 1 ≤ schemaSize s := by
  cases s <;> simp [schemaSize]

theorem schemaSizeList_le (flds : List (String × Schema)) (p : String × Schema)
    (hp : p ∈ flds) : schemaSize p.2 + 1 ≤ schemaSizeList flds := by
  induction flds with
  | nil => cases hp
  | cons q rest ih =>
    obtain ⟨k, s⟩ := q
    rcases List.mem_cons.mp hp with h | h
    · subst h
      simp only [schemaSizeList]
      omega
    · have := ih h
      simp only [schemaSizeList]
      omega

theorem intLE_length (w : Nat) : ∀ n, (intLE w n).length = w := by
  induction w with
  | zero => intro n; rfl
  | succ w ih => intro n; simp [intLE, ih]

theorem readLE_intLE (w : Nat) : ∀ n r, n < 256 ^ w →
    readLE w (intLE w n ++ r) = .ok (n, r) := by
  induction w with
  | zero =>
    intro n r h
    have : n = 0 := by omega
    subst this
    rfl
  | succ w ih =>
    intro n r h
    have hdiv : n / 256 < 256 ^ w := by
      have h2 : 256 ^ (w + 1) = 256 ^ w * 256 := by ring
      omega
    have h1 : intLE (w + 1) n ++ r = n % 256 :: (intLE w (n / 256) ++ r) := by
      simp [intLE]
    rw [h1]
    have h2 : readLE (w + 1) (n % 256 :: (intLE w (n / 256) ++ r)) =
        (readLE w (intLE w (n / 256) ++ r)).map (fun p => (n % 256 + 256 * p.1, p.2)) := rfl
    rw [h2, ih (n / 256) r hdiv]
    simp only [Except.map]
    have : n % 256 + 256 * (n / 256) = n := by omega
    rw [this]

theorem utf8Char_length_pos (c : Char) : 1 ≤ (utf8Char c).length := by
  unfold utf8Char
  repeat' split
  all_goals simp

theorem utf8DecChar_enc (c : Char) (r : List Nat) :
    utf8DecChar (utf8Char c ++ r) = some (c, r) := by
  have hvalid : c.toNat < 0xd800 ∨ 0xe000 ≤ c.toNat ∧ c.toNat < 0x110000 := c.valid
  have hub : c.toNat < 0x110000 := by rcases hvalid with h | h <;> omega
  have hsur : c.toNat < 0xD800 ∨ 0xE000 ≤ c.toNat := by
    rcases hvalid with h | h
    · exact Or.inl h
    · exact Or.inr h.1
  have hofNat : Char.ofNat c.toNat = c := Char.ofNat_toNat c
  by_cases h1 : c.toNat < 0x80
  · simp only [utf8Char, if_pos h1, List.cons_append, List.nil_append, utf8DecChar, if_pos h1,
      hofNat]
  · by_cases h2 : c.toNat < 0x800
    · have hb : utf8Char c = [0xC0 + c.toNat / 64, 0x80 + c.toNat % 64] := by
        simp only [utf8Char, if_neg h1, if_pos h2]
      rw [hb]
      simp only [List.cons_append, List.nil_append, utf8DecChar]
      rw [if_neg (by omega), if_neg (by omega), if_pos (by omega)]
      rw [if_pos (show (0x80 ≤ 0x80 + c.toNat % 64 && 0x80 + c.toNat % 64 < 0xC0) = true by
        simp only [Bool.and_eq_true, decide_eq_true_eq]
        exact ⟨by omega, by omega⟩)]
      rw [show (0xC0 + c.toNat / 64 - 0xC0) * 64 + (0x80 + c.toNat % 64 - 0x80) = c.toNat by
        omega]
      rw [if_pos (by omega), hofNat]
    · by_cases h3 : c.toNat < 0x10000
      · have hb : utf8Char c =
            [0xE0 + c.toNat / 4096, 0x80 + c.toNat / 64 % 64, 0x80 + c.toNat % 64] := by
          simp only [utf8Char, if_neg h1, if_neg h2, if_pos h3]
        rw [hb]
        simp only [List.cons_append, List.nil_append, utf8DecChar]
        rw [if_neg (by omega), if_neg (by omega), if_neg (by omega), if_pos (by omega)]
        rw [if_pos (show ((0x80 ≤ 0x80 + c.toNat / 64 % 64 && 0x80 + c.toNat / 64 % 64 < 0xC0) &&
            (0x80 ≤ 0x80 + c.toNat % 64 && 0x80 + c.toNat % 64 < 0xC0)) = true by
          simp only [Bool.and_eq_true, decide_eq_true_eq]
          exact ⟨⟨by omega, by omega⟩, ⟨by omega, by omega⟩⟩)]
        rw [show (0xE0 + c.toNat / 4096 - 0xE0) * 4096 + (0x80 + c.toNat / 64 % 64 - 0x80) * 64 +
            (0x80 + c.toNat % 64 - 0x80) = c.toNat by omega]
        rw [if_pos (show (0x800 ≤ c.toNat &&
            !(0xD800 ≤ c.toNat && c.toNat < 0xE000)) = true by
          simp only [Bool.and_eq_true, decide_eq_true_eq, Bool.not_eq_true', Bool.and_eq_false_iff,
            decide_eq_false_iff_not]
          refine ⟨by omega, ?_⟩
          rcases hsur with h | h
          · exact Or.inl (by omega)
          · exact Or.inr (by omega))]
        rw [hofNat]
      · have hb : utf8Char c =
            [0xF0 + c.toNat / 262144, 0x80 + c.toNat / 4096 % 64, 0x80 + c.toNat / 64 % 64,
              0x80 + c.toNat % 64] := by
          simp only [utf8Char, if_neg h1, if_neg h2, if_neg h3]
        rw [hb]
        simp only [List.cons_append, List.nil_append, utf8DecChar]
        rw [if_neg (by omega), if_neg (by omega), if_neg (by omega), if_neg (by omega),
          if_pos (by omega)]
        rw [if_pos (show (((0x80 ≤ 0x80 + c.toNat / 4096 % 64 &&
            0x80 + c.toNat / 4096 % 64 < 0xC0) &&
            (0x80 ≤ 0x80 + c.toNat / 64 % 64 && 0x80 + c.toNat / 64 % 64 < 0xC0)) &&
            (0x80 ≤ 0x80 + c.toNat % 64 && 0x80 + c.toNat % 64 < 0xC0)) = true by
          simp only [Bool.and_eq_true, decide_eq_true_eq]
          exact ⟨⟨⟨by omega, by omega⟩, ⟨by omega, by omega⟩⟩, ⟨by omega, by omega⟩⟩)]
        rw [show (0xF0 + c.toNat / 262144 - 0xF0) * 262144 +
            (0x80 + c.toNat / 4096 % 64 - 0x80) * 4096 +
            (0x80 + c.toNat / 64 % 64 - 0x80) * 64 + (0x80 + c.toNat % 64 - 0x80) = c.toNat by
          omega]
        rw [if_pos (show (0x10000 ≤ c.toNat && c.toNat < 0x110000) = true by
          simp only [Bool.and_eq_true, decide_eq_true_eq]
          exact ⟨by omega, by omega⟩)]
        rw [hofNat]

theorem utf8DecAll_enc : ∀ cs : List Char, ∀ fuel,
    ((cs.map utf8Char).flatten).length ≤ fuel →
    utf8DecAll fuel ((cs.map utf8Char).flatten) = some cs := by
  intro cs
  induction cs with
  | nil => intro fuel _; simp [utf8DecAll]
  | cons c cs ih =>
    intro fuel hfuel
    have hclen := utf8Char_length_pos c
    simp only [List.map_cons, List.flatten_cons, List.length_append] at hfuel ⊢
    obtain ⟨f, rfl⟩ : ∃ f, fuel = f + 1 := ⟨fuel - 1, by omega⟩
    obtain ⟨b, bs, hb⟩ : ∃ b bs, utf8Char c ++ (cs.map utf8Char).flatten = b :: bs := by
      cases hc : utf8Char c with
      | nil => rw [hc] at hclen; simp at hclen
      | cons x xs => exact ⟨x, xs ++ (cs.map utf8Char).flatten, by simp [hc]⟩
    rw [hb, utf8DecAll, ← hb, utf8DecChar_enc c]
    · have hrest : ((cs.map utf8Char).flatten).length ≤ f := by omega
      simp only [ih f hrest, Option.map]
    · simp

theorem utf8Dec_enc (s : String) : utf8Dec (utf8Enc s) = some s := by
  unfold utf8Dec utf8Enc
  rw [utf8DecAll_enc s.data _ le_rfl]
  rfl

theorem findVariant_spec : ∀ (vars : List (String × Schema)) name i ps,
    findVariant name vars = some (i, ps) →
    vars[i]? = some (name, ps) ∧ i < vars.length ∧ (name, ps) ∈ vars := by
  intro vars
  induction vars with
  | nil => intro name i ps h; simp [findVariant] at h
  | cons q rest ih =>
    intro name i ps h
    obtain ⟨k, sq⟩ := q
    simp only [findVariant] at h
    by_cases hk : k = name
    · rw [if_pos hk] at h
      subst hk
      cases h
      exact ⟨by simp, by simp, by simp⟩
    · rw [if_neg hk] at h
      cases hfv : findVariant name rest with
      | none => rw [hfv] at h; simp at h
      | some p =>
        rw [hfv] at h
        simp only [Option.map_some'] at h
        cases h
        obtain ⟨h1, h2, h3⟩ := ih name p.1 p.2 (by rw [hfv])
        refine ⟨?_, ?_, ?_⟩
        · simpa using h1
        · simp only [List.length_cons]; omega
        · exact List.mem_cons_of_mem _ h3

theorem getField_self (k : String) (v : Value) (l : List (String × Value)) :
    getField k ((k, v) :: l) = some v := by
  simp [getField]

theorem getField_skip (k k' : String) (h : k' ≠ k) (w : Value) (l : List (String × Value)) :
    getField k' ((k, w) :: l) = getField k' l := by
  simp [getField, Ne.symm h]

theorem allDistinct_cons {α} [DecidableEq α] {x : α} {xs : List α}
    (h : allDistinct (x :: xs) = true) : x ∉ xs ∧ allDistinct xs = true := by
  simpa [allDistinct] using h

theorem allDistinct_map_ok (bss : List (List Nat)) :
    allDistinct (bss.map (Except.ok : List Nat → Except EncErr (List Nat))) =
      allDistinct bss := by
  induction bss with
  | nil => rfl
  | cons b bss ih =>
    simp only [List.map_cons, allDistinct, ih, List.mem_map]
    congr 1
    simp only [decide_eq_decide]
    constructor
    · intro h hb
      exact h ⟨b, hb, rfl⟩
    · rintro h ⟨x, hx, hxe⟩
      cases hxe
      exact h hx

theorem valueSizeL_le (xs : List Value) (x : Value) (hx : x ∈ xs) :
    valueSize x + 1 ≤ valueSizeL xs := by
  induction xs with
  | nil => cases hx
  | cons y ys ih =>
    rcases List.mem_cons.mp hx with h | h
    · subst h
      simp only [valueSizeL]
      omega
    · have := ih h
      simp only [valueSizeL]
      omega

theorem valueSizeP_le (ps : List (Value × Value)) (p : Value × Value) (hp : p ∈ ps) :
    valueSize p.1 + valueSize p.2 + 1 ≤ valueSizeP ps := by
  induction ps with
  | nil => cases hp
  | cons q qs ih =>
    rcases List.mem_cons.mp hp with h | h
    · subst h
      simp only [valueSizeP]
      omega
    · have := ih h
      simp only [valueSizeP]
      omega

theorem valueSizeF_le (l : List (String × Value)) (p : String × Value) (hp : p ∈ l) :
    valueSize p.2 + 1 ≤ valueSizeF l := by
  induction l with
  | nil => cases hp
  | cons q qs ih =>
    rcases List.mem_cons.mp hp with h | h
    · subst h
      simp only [valueSizeF]
      omega
    · have := ih h
      simp only [valueSizeF]
      omega

theorem mapE_congr {α β : Type} {ε : Type} (f g : α → Except ε β) (xs : List α)
    (h : ∀ x ∈ xs, f x = g x) : mapE f xs = mapE g xs := by
  induction xs with
  | nil => rfl
  | cons x xs ih =>
    simp only [mapE, h x (by simp), ih (fun y hy => h y (by simp [hy]))]

theorem encFieldsE_congr (e e' : Schema → Value → Except EncErr (List Nat))
    (flds : List (String × Schema)) (l : List (String × Value))
    (h : ∀ p ∈ flds, ∀ w, e p.2 w = e' p.2 w) :
    encFieldsE e flds l = encFieldsE e' flds l := by
  induction flds with
  | nil => rfl
  | cons p rest ih =>
    obtain ⟨k, sq⟩ := p
    simp only [encFieldsE]
    cases getField k l with
    | none => rfl
    | some fv =>
      simp only [h (k, sq) (by simp) fv, ih (fun q hq w => h q (by simp [hq]) w)]

theorem encFieldsE_skip (e : Schema → Value → Except EncErr (List Nat))
    (flds : List (String × Schema)) (k : String) (w : Value) (l : List (String × Value))
    (h : ∀ p ∈ flds, p.1 ≠ k) :
    encFieldsE e flds ((k, w) :: l) = encFieldsE e flds l := by
  induction flds with
  | nil => rfl
  | cons p rest ih =>
    obtain ⟨k', sq⟩ := p
    have hk' : k' ≠ k := h (k', sq) (by simp)
    simp only [encFieldsE, getField_skip k k' hk' w l,
      ih (fun q hq => h q (by simp [hq]))]

theorem normFields_skip (nm : Schema → Value → Value)
    (flds : List (String × Schema)) (k : String) (w : Value) (l : List (String × Value))
    (h : ∀ p ∈ flds, p.1 ≠ k) :
    normFields nm flds ((k, w) :: l) = normFields nm flds l := by
  induction flds with
  | nil => rfl
  | cons p rest ih =>
    obtain ⟨k', sq⟩ := p
    have hk' : k' ≠ k := h (k', sq) (by simp)
    simp only [normFields, getField_skip k k' hk' w l,
      ih (fun q hq => h q (by simp [hq]))]

theorem mapE_decListE (e : Value → Except EncErr (List Nat))
    (d : List Nat → Except DecErr (Value × List Nat)) (nm : Value → Value) :
    ∀ xs : List Value,
      (∀ x ∈ xs, ∃ b, e x = .ok b ∧ ∀ r, d (b ++ r) = .ok (nm x, r)) →
      ∃ bss, mapE e xs = .ok bss ∧ xs.map e = bss.map Except.ok ∧
        ∀ rest, decListE d xs.length (bss.flatten ++ rest) = .ok (xs.map nm, rest) := by
  intro xs
  induction xs with
  | nil => exact fun _ => ⟨[], rfl, rfl, fun rest => rfl⟩
  | cons x xs ih =>
    intro h
    obtain ⟨b, hb, hbd⟩ := h x (by simp)
    obtain ⟨bss, hbss, hmap, hdec⟩ := ih (fun y hy => h y (by simp [hy]))
    refine ⟨b :: bss, ?_, ?_, ?_⟩
    · simp only [mapE, hb, hbss]
      rfl
    · simp only [List.map_cons, hb, hmap]
    · intro rest
      simp only [List.length_cons, List.flatten_cons, List.append_assoc, decListE]
      rw [hbd (bss.flatten ++ rest)]
      simp only [bind, Except.bind]
      rw [hdec rest]
      rfl

theorem mapE_decPairsE (ek ev : Value → Except EncErr (List Nat))
    (dk dv : List Nat → Except DecErr (Value × List Nat)) (nmk nmv : Value → Value) :
    ∀ ps : List (Value × Value),
      (∀ p ∈ ps,
        (∃ kb, ek p.1 = .ok kb ∧ ∀ r, dk (kb ++ r) = .ok (nmk p.1, r)) ∧
        (∃ vb, ev p.2 = .ok vb ∧ ∀ r, dv (vb ++ r) = .ok (nmv p.2, r))) →
      ∃ bss, mapE (fun p => do
          let kb ← ek p.1
          let vb ← ev p.2
          pure (kb ++ vb)) ps = .ok bss ∧
        ∀ rest, decPairsE dk dv ps.length (bss.flatten ++ rest) =
          .ok (ps.map (fun p => (nmk p.1, nmv p.2)), rest) := by
  intro ps
  induction ps with
  | nil => exact fun _ => ⟨[], rfl, fun rest => rfl⟩
  | cons p ps ih =>
    intro h
    obtain ⟨⟨kb, hkb, hkd⟩, ⟨vb, hvb, hvd⟩⟩ := h p (by simp)
    obtain ⟨bss, hbss, hdec⟩ := ih (fun q hq => h q (by simp [hq]))
    refine ⟨(kb ++ vb) :: bss, ?_, ?_⟩
    · simp only [mapE, hkb, hvb, hbss]
      rfl
    · intro rest
      simp only [List.length_cons, List.flatten_cons, List.append_assoc, decPairsE]
      rw [hkd (vb ++ (bss.flatten ++ rest))]
      simp only [bind, Except.bind]
      rw [hvd (bss.flatten ++ rest)]
      dsimp only
      rw [hdec rest]
      rfl

theorem fields_rt (e : Schema → Value → Except EncErr (List Nat))
    (d : Schema → List Nat → Except DecErr (Value × List Nat))
    (nm : Schema → Value → Value) (wf : Schema → Value → Bool) :
    ∀ (flds : List (String × Schema)) (l : List (String × Value)),
      (∀ p ∈ flds, ∀ w, wf p.2 w = true →
        ∃ b, e p.2 w = .ok b ∧ ∀ r, d p.2 (b ++ r) = .ok (nm p.2 w, r)) →
      allDistinct (flds.map Prod.fst) = true →
      wfFields wf flds l = true →
      ∃ bs, encFieldsE e flds l = .ok bs ∧
        ∀ rest, decFieldsE d flds (bs ++ rest) =
          .ok (normFields nm flds l, rest) := by
  intro flds
  induction flds with
  | nil =>
    intro l _ _ hwf
    cases l with
    | nil => exact ⟨[], rfl, fun rest => rfl⟩
    | cons q m => simp [wfFields] at hwf
  | cons p rest ih =>
    intro l hel hdist hwf
    obtain ⟨k, sq⟩ := p
    cases l with
    | nil => simp [wfFields] at hwf
    | cons q m =>
      obtain ⟨k', w⟩ := q
      simp only [wfFields, Bool.and_eq_true, decide_eq_true_eq] at hwf
      obtain ⟨⟨hk, hw⟩, hwfm⟩ := hwf
      subst hk
      simp only [List.map_cons] at hdist
      obtain ⟨hknotin, hdist'⟩ := allDistinct_cons hdist
      have hne : ∀ p ∈ rest, p.1 ≠ k := by
        intro p hp hpk
        exact hknotin (hpk ▸ List.mem_map_of_mem Prod.fst hp)
      obtain ⟨b, hb, hbd⟩ := hel (k, sq) (by simp) w hw
      obtain ⟨bs, hbs, hbsd⟩ := ih m (fun q hq => hel q (by simp [hq])) hdist' hwfm
      refine ⟨b ++ bs, ?_, ?_⟩
      · simp only [encFieldsE, getField_self, encFieldsE_skip e rest k w m hne, hb, hbs]
        rfl
      · intro r
        simp only [decFieldsE, List.append_assoc]
        rw [hbd (bs ++ r)]
        simp only [bind, Except.bind]
        rw [hbsd r]
        simp only [normFields, getField_self, Option.getD_some,
          normFields_skip nm rest k w m hne]

theorem encodeAux_congr : ∀ fuel fuel' s v, schemaSize s ≤ fuel → schemaSize s ≤ fuel' →
    encodeAux fuel s v = encodeAux fuel' s v := by
  intro fuel
  induction fuel with
  | zero =>
    intro fuel' s v h _
    have := schemaSize_pos s
    omega
  | succ f ih =>
    intro fuel' s v h h'
    have hpos := schemaSize_pos s
    obtain ⟨f', rfl⟩ : ∃ g, fuel' = g + 1 := ⟨fuel' - 1, by omega⟩
    cases s with
    | prim t => rfl
    | option inner =>
      have h1 : schemaSize inner ≤ f := by simp only [schemaSize] at h; omega
      have h2 : schemaSize inner ≤ f' := by simp only [schemaSize] at h'; omega
      cases v <;> simp only [encodeAux] <;> try rw [ih f' inner _ h1 h2]
    | arr inner len =>
      have h1 : schemaSize inner ≤ f := by simp only [schemaSize] at h; omega
      have h2 : schemaSize inner ≤ f' := by simp only [schemaSize] at h'; omega
      have hm : ∀ xs : List Value,
          mapE (encodeAux f inner) xs = mapE (encodeAux f' inner) xs :=
        fun xs => mapE_congr _ _ xs (fun x _ => ih f' inner x h1 h2)
      cases len <;> cases v <;> simp only [encodeAux] <;> try rw [hm]
    | set inner =>
      have h1 : schemaSize inner ≤ f := by simp only [schemaSize] at h; omega
      have h2 : schemaSize inner ≤ f' := by simp only [schemaSize] at h'; omega
      cases v <;> simp only [encodeAux] <;>
        try rw [mapE_congr _ _ _ (fun x _ => ih f' inner x h1 h2)]
    | map ks vs =>
      have h1 : schemaSize ks ≤ f ∧ schemaSize vs ≤ f := by
        simp only [schemaSize] at h
        have := schemaSize_pos ks
        have := schemaSize_pos vs
        omega
      have h2 : schemaSize ks ≤ f' ∧ schemaSize vs ≤ f' := by
        simp only [schemaSize] at h'
        have := schemaSize_pos ks
        have := schemaSize_pos vs
        omega
      cases v <;> simp only [encodeAux] <;>
        try rw [mapE_congr _ _ _ (fun p _ => by
          rw [ih f' ks p.1 h1.1 h2.1, ih f' vs p.2 h1.2 h2.2])]
    | struct flds =>
      have hb : ∀ p ∈ flds, schemaSize p.2 ≤ f ∧ schemaSize p.2 ≤ f' := by
        intro p hp
        have := schemaSizeList_le flds p hp
        simp only [schemaSize] at h h'
        omega
      cases v
      case vobj l =>
        simp only [encodeAux]
        rw [encFieldsE_congr _ _ flds l (fun p hp w => ih f' p.2 w (hb p hp).1 (hb p hp).2)]
      all_goals rfl
    | enum vars =>
      have hb : ∀ p ∈ vars, schemaSize p.2 ≤ f ∧ schemaSize p.2 ≤ f' := by
        intro p hp
        have := schemaSizeList_le vars p hp
        simp only [schemaSize] at h h'
        omega
      cases v
      case vobj l =>
        cases l
        case nil => rfl
        case cons p l' =>
          cases l'
          case nil =>
            obtain ⟨name, payload⟩ := p
            simp only [encodeAux]
            cases hfv : findVariant name vars with
            | none => rfl
            | some ip =>
              obtain ⟨i, ps⟩ := ip
              have hmem := (findVariant_spec vars name i ps hfv).2.2
              have hb2 := hb (name, ps) hmem
              dsimp only
              rw [ih f' ps payload hb2.1 hb2.2]
          case cons => rfl
      all_goals rfl

theorem rt_prim (t : PrimTag) (v : Value) (h : wfPrim t v = true) :
    ∃ bs, encodePrim t v = .ok bs ∧
      ∀ rest, decodePrim t (bs ++ rest) = .ok (normPrim t v, rest) := by
  cases t with
  | u8 =>
    cases v <;> simp [wfPrim] at h
    case vnum n =>
      refine ⟨intLE 1 n.toNat, ?_, ?_⟩
      · simp only [encodePrim]
        rw [if_pos (by simp only [Bool.and_eq_true, decide_eq_true_eq]; exact ⟨h.1, h.2⟩)]
      · intro rest
        simp only [decodePrim]
        rw [readLE_intLE 1 n.toNat rest (by norm_num; omega)]
        simp only [Except.map, normPrim]
        rw [Int.toNat_of_nonneg h.1]
  | u16 =>
    cases v <;> simp [wfPrim] at h
    case vnum n =>
      refine ⟨intLE 2 n.toNat, ?_, ?_⟩
      · simp only [encodePrim]
        rw [if_pos (by simp only [Bool.and_eq_true, decide_eq_true_eq]; exact ⟨h.1, h.2⟩)]
      · intro rest
        simp only [decodePrim]
        rw [readLE_intLE 2 n.toNat rest (by norm_num; omega)]
        simp only [Except.map, normPrim]
        rw [Int.toNat_of_nonneg h.1]
  | u32 =>
    cases v <;> simp [wfPrim] at h
    case vnum n =>
      refine ⟨intLE 4 n.toNat, ?_, ?_⟩
      · simp only [encodePrim]
        rw [if_pos (by simp only [Bool.and_eq_true, decide_eq_true_eq]; exact ⟨h.1, h.2⟩)]
      · intro rest
        simp only [decodePrim]
        rw [readLE_intLE 4 n.toNat rest (by norm_num; omega)]
        simp only [Except.map, normPrim]
        rw [Int.toNat_of_nonneg h.1]
  | i8 =>
    cases v <;> simp [wfPrim] at h
    case vnum n =>
      refine ⟨intLE 1 (n % 256).toNat, ?_, ?_⟩
      · simp only [encodePrim]
        rw [if_pos (by simp only [Bool.and_eq_true, decide_eq_true_eq]; exact ⟨h.1, h.2⟩)]
      · intro rest
        simp only [decodePrim]
        rw [readLE_intLE 1 (n % 256).toNat rest (by norm_num; omega)]
        simp only [Except.map, normPrim]
        have : toSigned 1 (n % 256).toNat = n := by
          simp only [toSigned]
          split <;> norm_num <;> omega
        rw [this]
  | i16 =>
    cases v <;> simp [wfPrim] at h
    case vnum n =>
      refine ⟨intLE 2 (n % 65536).toNat, ?_, ?_⟩
      · simp only [encodePrim]
        rw [if_pos (by simp only [Bool.and_eq_true, decide_eq_true_eq]; exact ⟨h.1, h.2⟩)]
      · intro rest
        simp only [decodePrim]
        rw [readLE_intLE 2 (n % 65536).toNat rest (by norm_num; omega)]
        simp only [Except.map, normPrim]
        have : toSigned 2 (n % 65536).toNat = n := by
          simp only [toSigned]
          split <;> norm_num <;> omega
        rw [this]
  | i32 =>
    cases v <;> simp [wfPrim] at h
    case vnum n =>
      refine ⟨intLE 4 (n % 4294967296).toNat, ?_, ?_⟩
      · simp only [encodePrim]
        rw [if_pos (by simp only [Bool.and_eq_true, decide_eq_true_eq]; exact ⟨h.1, h.2⟩)]
      · intro rest
        simp only [decodePrim]
        rw [readLE_intLE 4 (n % 4294967296).toNat rest (by norm_num; omega)]
        simp only [Except.map, normPrim]
        have : toSigned 4 (n % 4294967296).toNat = n := by
          simp only [toSigned]
          split <;> norm_num <;> omega
        rw [this]
  | u64 =>
    cases hbig : bigIntOf v with
    | none => simp [wfPrim, hbig] at h
    | some n =>
      simp [wfPrim, hbig] at h
      refine ⟨intLE 8 n.toNat, ?_, ?_⟩
      · simp only [encodePrim, hbig]
        rw [if_pos (by simp only [Bool.and_eq_true, decide_eq_true_eq]
                       exact ⟨h.1, by norm_num; omega⟩)]
      · intro rest
        simp only [decodePrim]
        rw [readLE_intLE 8 n.toNat rest (by norm_num; omega)]
        simp only [Except.map, normPrim, hbig, Option.getD_some]
        rw [Int.toNat_of_nonneg h.1]
  | u128 =>
    cases hbig : bigIntOf v with
    | none => simp [wfPrim, hbig] at h
    | some n =>
      simp [wfPrim, hbig] at h
      refine ⟨intLE 16 n.toNat, ?_, ?_⟩
      · simp only [encodePrim, hbig]
        rw [if_pos (by simp only [Bool.and_eq_true, decide_eq_true_eq]
                       exact ⟨h.1, by norm_num; omega⟩)]
      · intro rest
        simp only [decodePrim]
        rw [readLE_intLE 16 n.toNat rest (by norm_num; omega)]
        simp only [Except.map, normPrim, hbig, Option.getD_some]
        rw [Int.toNat_of_nonneg h.1]
  | i64 =>
    cases hbig : bigIntOf v with
    | none => simp [wfPrim, hbig] at h
    | some n =>
      simp [wfPrim, hbig] at h
      refine ⟨intLE 8 (n % ((2 ^ 64 : Nat) : Int)).toNat, ?_, ?_⟩
      · simp only [encodePrim, hbig]
        rw [if_pos (by simp only [Bool.and_eq_true, decide_eq_true_eq]
                       exact ⟨by norm_num; omega, by norm_num; omega⟩)]
      · intro rest
        simp only [decodePrim]
        rw [readLE_intLE 8 _ rest (by norm_num; omega)]
        simp only [Except.map, normPrim, hbig, Option.getD_some]
        have : toSigned 8 ((n % ((2 ^ 64 : Nat) : Int)).toNat) = n := by
          simp only [toSigned]
          split <;> norm_num <;> omega
        norm_num at this ⊢
        rw [this]
  | i128 =>
    cases hbig : bigIntOf v with
    | none => simp [wfPrim, hbig] at h
    | some n =>
      simp [wfPrim, hbig] at h
      refine ⟨intLE 16 (n % ((2 ^ 128 : Nat) : Int)).toNat, ?_, ?_⟩
      · simp only [encodePrim, hbig]
        rw [if_pos (by simp only [Bool.and_eq_true, decide_eq_true_eq]
                       exact ⟨by norm_num; omega, by norm_num; omega⟩)]
      · intro rest
        simp only [decodePrim]
        rw [readLE_intLE 16 _ rest (by norm_num; omega)]
        simp only [Except.map, normPrim, hbig, Option.getD_some]
        have : toSigned 16 ((n % ((2 ^ 128 : Nat) : Int)).toNat) = n := by
          simp only [toSigned]
          split <;> norm_num <;> omega
        norm_num at this ⊢
        rw [this]
  | f32 =>
    cases v <;> simp [wfPrim] at h
    case vf32 b =>
      refine ⟨intLE 4 b, ?_, ?_⟩
      · simp only [encodePrim]
        rw [if_pos (by norm_num; omega)]
      · intro rest
        simp only [decodePrim]
        rw [readLE_intLE 4 b rest (by norm_num; omega)]
        rfl
  | f64 =>
    cases v <;> simp [wfPrim] at h
    case vf64 b =>
      refine ⟨intLE 8 b, ?_, ?_⟩
      · simp only [encodePrim]
        rw [if_pos (by norm_num; omega)]
      · intro rest
        simp only [decodePrim]
        rw [readLE_intLE 8 b rest (by norm_num; omega)]
        rfl
  | bool =>
    cases v <;> simp [wfPrim] at h
    case vbool b =>
      cases b
      · exact ⟨[0], rfl, fun rest => rfl⟩
      · exact ⟨[1], rfl, fun rest => rfl⟩
  | str =>
    cases v <;> simp [wfPrim] at h
    case vstr s =>
      refine ⟨intLE 4 (utf8Enc s).length ++ utf8Enc s, ?_, ?_⟩
      · simp only [encodePrim]
      · intro rest
        simp only [decodePrim, List.append_assoc]
        rw [readLE_intLE 4 (utf8Enc s).length (utf8Enc s ++ rest) (by norm_num; omega)]
        simp only [bind, Except.bind]
        rw [if_pos (by simp)]
        rw [List.take_left, List.drop_left, utf8Dec_enc]
        rfl

theorem rt_aux : ∀ fuel s v, schemaSize s ≤ fuel → WFaux fuel s v = true →
    ∃ bs, encodeAux fuel s v = .ok bs ∧
      ∀ rest, decodeAux fuel s (bs ++ rest) = .ok (normAux fuel s v, rest) := by
  intro fuel
  induction fuel with
  | zero =>
    intro s v h _
    have := schemaSize_pos s
    omega
  | succ f ih =>
    intro s v h hwf
    cases s with
    | prim t =>
      simp only [WFaux] at hwf
      obtain ⟨bs, he, hd⟩ := rt_prim t v hwf
      refine ⟨bs, ?_, fun rest => ?_⟩
      · simpa only [encodeAux] using he
      · have hn : normAux (f + 1) (.prim t) v = normPrim t v := by cases t <;> rfl
        simp only [decodeAux]
        rw [hd rest, hn]
    | option inner =>
      have hsz : schemaSize inner ≤ f := by simp only [schemaSize] at h; omega
      cases v
      case vnull => exact ⟨[0], rfl, fun rest => rfl⟩
      all_goals
        simp only [WFaux] at hwf
        obtain ⟨bs, he, hd⟩ := ih inner _ hsz hwf
        refine ⟨1 :: bs, ?_, fun rest => ?_⟩
        · simp only [encodeAux, he]
          rfl
        · simp only [decodeAux, List.cons_append]
          rw [hd rest]
          rfl
    | arr inner len =>
      have hsz : schemaSize inner ≤ f := by simp only [schemaSize] at h; omega
      cases len with
      | none =>
        cases v
        case varr xs =>
          simp only [WFaux, Bool.and_eq_true, decide_eq_true_eq, List.all_eq_true] at hwf
          obtain ⟨hlen, hall⟩ := hwf
          obtain ⟨bss, hm, hmap, hdec⟩ := mapE_decListE (encodeAux f inner) (decodeAux f inner)
            (normAux f inner) xs (fun x hx => ih inner x hsz (hall x hx))
          refine ⟨intLE 4 xs.length ++ bss.flatten, ?_, fun rest => ?_⟩
          · simp only [encodeAux, hm]
            rfl
          · simp only [decodeAux, List.append_assoc]
            rw [readLE_intLE 4 xs.length (bss.flatten ++ rest) (by norm_num; omega)]
            simp only [bind, Except.bind]
            rw [hdec rest]
            rfl
        case vtyped t xs =>
          simp only [WFaux, Bool.and_eq_true, decide_eq_true_eq, List.all_eq_true] at hwf
          obtain ⟨hlen, hall⟩ := hwf
          obtain ⟨bss, hm, hmap, hdec⟩ := mapE_decListE (encodeAux f inner) (decodeAux f inner)
            (normAux f inner) xs (fun x hx => ih inner x hsz (hall x hx))
          refine ⟨intLE 4 xs.length ++ bss.flatten, ?_, fun rest => ?_⟩
          · simp only [encodeAux, hm]
            rfl
          · simp only [decodeAux, List.append_assoc]
            rw [readLE_intLE 4 xs.length (bss.flatten ++ rest) (by norm_num; omega)]
            simp only [bind, Except.bind]
            rw [hdec rest]
            rfl
        all_goals simp [WFaux] at hwf
      | some len =>
        cases v
        case varr xs =>
          simp only [WFaux, Bool.and_eq_true, decide_eq_true_eq, List.all_eq_true] at hwf
          obtain ⟨hlen, hall⟩ := hwf
          obtain ⟨bss, hm, hmap, hdec⟩ := mapE_decListE (encodeAux f inner) (decodeAux f inner)
            (normAux f inner) xs (fun x hx => ih inner x hsz (hall x hx))
          refine ⟨bss.flatten, ?_, fun rest => ?_⟩
          · simp only [encodeAux]
            rw [if_pos hlen, hm]
            rfl
          · simp only [decodeAux]
            rw [← hlen, hdec rest]
            rfl
        all_goals simp [WFaux] at hwf
    | set inner =>
      have hsz : schemaSize inner ≤ f := by simp only [schemaSize] at h; omega
      cases v
      case vset xs =>
        simp only [WFaux, Bool.and_eq_true, decide_eq_true_eq, List.all_eq_true] at hwf
        obtain ⟨⟨hlen, hall⟩, hdist⟩ := hwf
        obtain ⟨bss, hm, hmap, hdec⟩ := mapE_decListE (encodeAux f inner) (decodeAux f inner)
          (normAux f inner) xs (fun x hx => ih inner x hsz (hall x hx))
        have hser : xs.map (Borsh.serialize inner) = xs.map (encodeAux f inner) :=
          List.map_congr_left (fun x _ => encodeAux_congr (schemaSize inner) f inner x le_rfl hsz)
        rw [hser, hmap, allDistinct_map_ok] at hdist
        refine ⟨intLE 4 xs.length ++ bss.flatten, ?_, fun rest => ?_⟩
        · simp only [encodeAux]
          rw [hm]
          simp only [bind, Except.bind]
          rw [if_pos hdist]
        · simp only [decodeAux, List.append_assoc]
          rw [readLE_intLE 4 xs.length (bss.flatten ++ rest) (by norm_num; omega)]
          simp only [bind, Except.bind]
          rw [hdec rest]
          rfl
      all_goals simp [WFaux] at hwf
    | map ks vs =>
      have hsz1 : schemaSize ks ≤ f := by
        simp only [schemaSize] at h
        have := schemaSize_pos vs
        omega
      have hsz2 : schemaSize vs ≤ f := by
        simp only [schemaSize] at h
        have := schemaSize_pos ks
        omega
      cases v
      case vmap ps =>
        simp only [WFaux, Bool.and_eq_true, decide_eq_true_eq, List.all_eq_true] at hwf
        obtain ⟨⟨hlen, hall⟩, _⟩ := hwf
        obtain ⟨bss, hm, hdec⟩ := mapE_decPairsE (encodeAux f ks) (encodeAux f vs)
          (decodeAux f ks) (decodeAux f vs) (normAux f ks) (normAux f vs) ps
          (fun p hp => by
            have := hall p hp
            simp only [Bool.and_eq_true] at this
            exact ⟨ih ks p.1 hsz1 this.1, ih vs p.2 hsz2 this.2⟩)
        refine ⟨intLE 4 ps.length ++ bss.flatten, ?_, fun rest => ?_⟩
        · simp only [encodeAux]
          rw [hm]
          rfl
        · simp only [decodeAux, List.append_assoc]
          rw [readLE_intLE 4 ps.length (bss.flatten ++ rest) (by norm_num; omega)]
          simp only [bind, Except.bind]
          rw [hdec rest]
          rfl
      all_goals simp [WFaux] at hwf
    | struct flds =>
      cases v
      case vobj l =>
        simp only [WFaux, Bool.and_eq_true] at hwf
        obtain ⟨hdist, hwfl⟩ := hwf
        have hel : ∀ p ∈ flds, ∀ w, WFaux f p.2 w = true →
            ∃ b, encodeAux f p.2 w = .ok b ∧
              ∀ r, decodeAux f p.2 (b ++ r) = .ok (normAux f p.2 w, r) := by
          intro p hp w hw
          refine ih p.2 w ?_ hw
          have := schemaSizeList_le flds p hp
          simp only [schemaSize] at h
          omega
        obtain ⟨bs, he, hd⟩ :=
          fields_rt (encodeAux f) (decodeAux f) (normAux f) (WFaux f) flds l hel hdist hwfl
        refine ⟨bs, ?_, fun rest => ?_⟩
        · simpa only [encodeAux] using he
        · simp only [decodeAux]
          rw [hd rest]
          rfl
      all_goals simp [WFaux] at hwf
    | enum vars =>
      cases v
      case vobj l =>
        cases l
        case nil => simp [WFaux] at hwf
        case cons p l' =>
          cases l'
          case cons q m => simp [WFaux] at hwf
          case nil =>
            obtain ⟨name, payload⟩ := p
            simp only [WFaux, Bool.and_eq_true, decide_eq_true_eq] at hwf
            obtain ⟨h256, hwf2⟩ := hwf
            cases hfv : findVariant name vars with
            | none => rw [hfv] at hwf2; simp at hwf2
            | some ip =>
              obtain ⟨i, ps⟩ := ip
              rw [hfv] at hwf2
              obtain ⟨hget, hlt, hmem⟩ := findVariant_spec vars name i ps hfv
              have hszp : schemaSize ps ≤ f := by
                have h2 : schemaSize ps + 1 ≤ schemaSizeList vars :=
                  schemaSizeList_le vars (name, ps) hmem
                simp only [schemaSize] at h
                omega
              obtain ⟨bs, he, hd⟩ := ih ps payload hszp hwf2
              have hi256 : i % 256 = i := Nat.mod_eq_of_lt (by omega)
              refine ⟨i :: bs, ?_, fun rest => ?_⟩
              · simp only [encodeAux, hfv]
                rw [he, hi256]
                rfl
              · simp only [decodeAux, List.cons_append]
                rw [hget]
                dsimp only
                rw [hd rest]
                simp [Except.map, normAux, hfv]
      all_goals simp [WFaux] at hwf

theorem valueSize_pos (v : Value) : 1 ≤ valueSize v := by
  cases v <;> simp [valueSize]

theorem obsEqL_map (eq2 : Value → Value → Bool) (nm : Value → Value) :
    ∀ xs : List Value, (∀ x ∈ xs, eq2 x (nm x) = true) →
      obsEqL eq2 xs (xs.map nm) = true := by
  intro xs
  induction xs with
  | nil => intro _; rfl
  | cons x xs ih =>
    intro h
    simp only [List.map_cons, obsEqL, Bool.and_eq_true]
    exact ⟨h x (by simp), ih (fun y hy => h y (by simp [hy]))⟩

theorem obsEqP_map (eq2 : Value → Value → Bool) (nmk nmv : Value → Value) :
    ∀ ps : List (Value × Value),
      (∀ p ∈ ps, eq2 p.1 (nmk p.1) = true ∧ eq2 p.2 (nmv p.2) = true) →
      obsEqP eq2 ps (ps.map (fun p => (nmk p.1, nmv p.2))) = true := by
  intro ps
  induction ps with
  | nil => intro _; rfl
  | cons p ps ih =>
    intro h
    simp only [List.map_cons, obsEqP, Bool.and_eq_true]
    exact ⟨⟨(h p (by simp)).1, (h p (by simp)).2⟩, ih (fun q hq => h q (by simp [hq]))⟩

theorem obsEqF_normFields (eq2 : Value → Value → Bool) (nm : Schema → Value → Value)
    (wf : Schema → Value → Bool) :
    ∀ (flds : List (String × Schema)) (l : List (String × Value)),
      wfFields wf flds l = true →
      allDistinct (flds.map Prod.fst) = true →
      (∀ p ∈ flds, ∀ w, wf p.2 w = true → w ∈ l.map Prod.snd → eq2 w (nm p.2 w) = true) →
      obsEqF eq2 l (normFields nm flds l) = true := by
  intro flds
  induction flds with
  | nil =>
    intro l hwf _ _
    cases l with
    | nil => rfl
    | cons q m => simp [wfFields] at hwf
  | cons p rest ih =>
    intro l hwf hdist hel
    obtain ⟨k, sq⟩ := p
    cases l with
    | nil => simp [wfFields] at hwf
    | cons q m =>
      obtain ⟨k', w⟩ := q
      simp only [wfFields, Bool.and_eq_true, decide_eq_true_eq] at hwf
      obtain ⟨⟨hk, hw⟩, hwfm⟩ := hwf
      subst hk
      simp only [List.map_cons] at hdist
      obtain ⟨hknotin, hdist'⟩ := allDistinct_cons hdist
      have hne : ∀ p ∈ rest, p.1 ≠ k := by
        intro p hp hpk
        exact hknotin (hpk ▸ List.mem_map_of_mem Prod.fst hp)
      simp only [normFields, getField_self, Option.getD_some,
        normFields_skip nm rest k w m hne, obsEqF, Bool.and_eq_true, decide_eq_true_eq]
      refine ⟨⟨trivial, hel (k, sq) (by simp) w hw (by simp)⟩, ?_⟩
      exact ih m hwfm hdist' (fun p hp w' hw' hmem =>
        hel p (by simp [hp]) w' hw' (by simp [hmem]))

theorem obsEq_normPrim (g : Nat) (t : PrimTag) (v : Value) (h : wfPrim t v = true) :
    obsEqAux (g + 1) v (normPrim t v) = true := by
  cases t <;> cases v <;> simp only [wfPrim, bigIntOf] at h <;>
    first
      | exact absurd h (by decide)
      | (simp [normPrim, bigIntOf, obsEqAux]; done)
      | (split at h <;>
          first
            | exact absurd h (by decide)
            | simp_all [normPrim, bigIntOf, obsEqAux])

theorem obsEq_normAux : ∀ fs s v gv, schemaSize s ≤ fs → valueSize v ≤ gv →
    WFaux fs s v = true → obsEqAux gv v (normAux fs s v) = true := by
  intro fs
  induction fs with
  | zero =>
    intro s v gv hs _ _
    have := schemaSize_pos s
    omega
  | succ f ih =>
    intro s v gv hs hv hwf
    have hg1 := valueSize_pos v
    obtain ⟨g, rfl⟩ : ∃ g, gv = g + 1 := ⟨gv - 1, by omega⟩
    cases s with
    | prim t =>
      simp only [WFaux] at hwf
      have hn : normAux (f + 1) (.prim t) v = normPrim t v := by cases t <;> rfl
      rw [hn]
      exact obsEq_normPrim g t v hwf
    | option inner =>
      have hsz : schemaSize inner ≤ f := by simp only [schemaSize] at hs; omega
      cases v
      case vnull => rfl
      all_goals
        simp only [WFaux] at hwf
        simp only [normAux]
        exact ih inner _ (g + 1) hsz hv hwf
    | arr inner len =>
      have hsz : schemaSize inner ≤ f := by simp only [schemaSize] at hs; omega
      cases len with
      | none =>
        cases v
        case varr xs =>
          simp only [WFaux, Bool.and_eq_true, List.all_eq_true] at hwf
          simp only [normAux, obsEqAux]
          exact obsEqL_map (obsEqAux g) (normAux f inner) xs (fun x hx =>
            ih inner x g hsz
              (by have := valueSizeL_le xs x hx; simp only [valueSize] at hv; omega)
              (hwf.2 x hx))
        case vtyped t xs =>
          simp only [WFaux, Bool.and_eq_true, List.all_eq_true] at hwf
          simp only [normAux, obsEqAux]
          exact obsEqL_map (obsEqAux g) (normAux f inner) xs (fun x hx =>
            ih inner x g hsz
              (by have := valueSizeL_le xs x hx; simp only [valueSize] at hv; omega)
              (hwf.2 x hx))
        all_goals simp [WFaux] at hwf
      | some len =>
        cases v
        case varr xs =>
          simp only [WFaux, Bool.and_eq_true, List.all_eq_true] at hwf
          simp only [normAux, obsEqAux]
          exact obsEqL_map (obsEqAux g) (normAux f inner) xs (fun x hx =>
            ih inner x g hsz
              (by have := valueSizeL_le xs x hx; simp only [valueSize] at hv; omega)
              (hwf.2 x hx))
        all_goals simp [WFaux] at hwf
    | set inner =>
      have hsz : schemaSize inner ≤ f := by simp only [schemaSize] at hs; omega
      cases v
      case vset xs =>
        simp only [WFaux, Bool.and_eq_true, List.all_eq_true] at hwf
        simp only [normAux, obsEqAux]
        exact obsEqL_map (obsEqAux g) (normAux f inner) xs (fun x hx =>
          ih inner x g hsz
            (by have := valueSizeL_le xs x hx; simp only [valueSize] at hv; omega)
            (hwf.1.2 x hx))
      all_goals simp [WFaux] at hwf
    | map ks vs =>
      have hsz1 : schemaSize ks ≤ f := by
        simp only [schemaSize] at hs
        have := schemaSize_pos vs
        omega
      have hsz2 : schemaSize vs ≤ f := by
        simp only [schemaSize] at hs
        have := schemaSize_pos ks
        omega
      cases v
      case vmap ps =>
        simp only [WFaux, Bool.and_eq_true, List.all_eq_true] at hwf
        simp only [normAux, obsEqAux]
        refine obsEqP_map (obsEqAux g) (normAux f ks) (normAux f vs) ps (fun p hp => ?_)
        have hall := hwf.1.2 p hp
        simp only [Bool.and_eq_true] at hall
        have hpsz := valueSizeP_le ps p hp
        simp only [valueSize] at hv
        exact ⟨ih ks p.1 g hsz1 (by omega) hall.1, ih vs p.2 g hsz2 (by omega) hall.2⟩
      all_goals simp [WFaux] at hwf
    | struct flds =>
      cases v
      case vobj l =>
        simp only [WFaux, Bool.and_eq_true] at hwf
        simp only [normAux, obsEqAux]
        refine obsEqF_normFields (obsEqAux g) (normAux f) (WFaux f) flds l hwf.2 hwf.1
          (fun p hp w hw hmem => ?_)
        have hsch : schemaSize p.2 ≤ f := by
          have := schemaSizeList_le flds p hp
          simp only [schemaSize] at hs
          omega
        obtain ⟨q, hq, hqe⟩ := List.mem_map.mp hmem
        have hqle := valueSizeF_le l q hq
        rw [hqe] at hqle
        simp only [valueSize] at hv
        exact ih p.2 w g hsch (by omega) hw
      all_goals simp [WFaux] at hwf
    | enum vars =>
      cases v
      case vobj l =>
        cases l
        case nil => simp [WFaux] at hwf
        case cons p l' =>
          cases l'
          case cons q m => simp [WFaux] at hwf
          case nil =>
            obtain ⟨name, payload⟩ := p
            simp only [WFaux, Bool.and_eq_true, decide_eq_true_eq] at hwf
            obtain ⟨h256, hwf2⟩ := hwf
            cases hfv : findVariant name vars with
            | none => rw [hfv] at hwf2; simp at hwf2
            | some ip =>
              rw [hfv] at hwf2
              have hmem := (findVariant_spec vars name ip.1 ip.2 (by rw [hfv])).2.2
              have hsch : schemaSize ip.2 ≤ f := by
                have h2 : schemaSize ip.2 + 1 ≤ schemaSizeList vars :=
                  schemaSizeList_le vars (name, ip.2) hmem
                simp only [schemaSize] at hs
                omega
              simp only [normAux, hfv, obsEqAux, obsEqF, Bool.and_eq_true, decide_eq_true_eq]
              have hpsz : valueSize payload ≤ g := by
                simp only [valueSize, valueSizeF] at hv
                omega
              refine ⟨⟨trivial, ?_⟩, trivial⟩
              exact ih ip.2 payload g hsch hpsz hwf2
      all_goals simp [WFaux] at hwf

/-- Engine-level round trip: encoding a well-formed value succeeds, and
decoding the result (with any trailing bytes) returns the canonical decoded
form, leaving exactly the trailing bytes unconsumed. -/
theorem borsh_rt (s : Schema) (v : Value) (hwf : WF s v = true) :
    ∃ bs, Borsh.serialize s v = .ok bs ∧
      ∀ rest, Borsh.decodeRun s (bs ++ rest) = .ok (norm s v, rest) :=
  rt_aux (schemaSize s) s v le_rfl hwf

/-- A well-formed value is observably equal to its canonical decoded form. -/
theorem obsEq_norm (s : Schema) (v : Value) (hwf : WF s v = true) :
    obsEq v (norm s v) = true :=
  obsEq_normAux (schemaSize s) s v (valueSize v) le_rfl le_rfl hwf

theorem WF_prim (t : PrimTag) (w : Value) : WF (.prim t) w = wfPrim t w := rfl

theorem norm_prim (t : PrimTag) (w : Value) : norm (.prim t) w = normPrim t w := by
  cases t <;> rfl

theorem wf_big_some (s : Schema) (v : Value) (hbig : isBig64or128 s = true)
    (hwf : WF s v = true) : ∃ n, bigIntOf v = some n := by
  cases s <;> simp [isBig64or128] at hbig
  case prim t =>
    rw [WF_prim] at hwf
    cases hbv : bigIntOf v with
    | some n => exact ⟨n, rfl⟩
    | none =>
      cases t <;> simp [isBig64or128] at hbig <;> simp [wfPrim, hbv] at hwf

theorem wf_big_coerce (s : Schema) (v : Value) (n : Int) (hbig : isBig64or128 s = true)
    (hv : bigIntOf v = some n) (hwf : WF s v = true) :
    WF s (.vbig n) = true ∧ norm s (.vbig n) = norm s v := by
  cases s <;> simp [isBig64or128] at hbig
  case prim t =>
    rw [WF_prim] at hwf
    constructor
    · rw [WF_prim]
      cases t <;> simp [isBig64or128] at hbig <;> simp_all [wfPrim, bigIntOf, hv]
    · rw [norm_prim, norm_prim]
      cases t <;> simp [isBig64or128] at hbig <;> (simp only [normPrim]; rw [hv]; rfl)

theorem coerceOutput_norm (s : Schema) (v : Value) :
    BorshSchema.coerceOutput s (norm s v) = norm s v := by
  cases s
  case prim t =>
    rw [norm_prim]
    cases t <;> rfl
  all_goals rfl

theorem coerceInput_big (s : Schema) (v : Value) (n : Int) (hbig : isBig64or128 s = true)
    (hv : bigIntOf v = some n) : BorshSchema.coerceInput s v = .ok (.vbig n) := by
  simp [BorshSchema.coerceInput, hbig, hv]

theorem coerceInput_nonbig (s : Schema) (v : Value) (hbig : isBig64or128 s = false) :
    BorshSchema.coerceInput s v = .ok v := by
  simp [BorshSchema.coerceInput, hbig]

/-- Wrapper-level round trip for the current-generation class: `serialize`
then `deserialize` succeeds and yields the canonical decoded form of the
value. -/
theorem serialize_deserialize_src (s : Schema) (v : Value) (hwf : WF s v = true) :
    ∃ bs, BorshSchema.serialize s v = .ok bs ∧
      BorshSchema.deserialize s bs = .ok (norm s v) := by
  by_cases hbig : isBig64or128 s = true
  · obtain ⟨n, hv⟩ := wf_big_some s v hbig hwf
    obtain ⟨hwfb, hnorm⟩ := wf_big_coerce s v n hbig hv hwf
    obtain ⟨bs, he, hd⟩ := borsh_rt s (.vbig n) hwfb
    refine ⟨bs, ?_, ?_⟩
    · simp only [BorshSchema.serialize, coerceInput_big s v n hbig hv, bind, Except.bind]
      exact he
    · have hd0 := hd []
      rw [List.append_nil] at hd0
      simp only [BorshSchema.deserialize, Borsh.deserialize, hd0, Except.map]
      rw [coerceOutput_norm s (.vbig n), hnorm]
  · have hb' : isBig64or128 s = false := by
      cases hx : isBig64or128 s
      · rfl
      · exact absurd hx hbig
    obtain ⟨bs, he, hd⟩ := borsh_rt s v hwf
    refine ⟨bs, ?_, ?_⟩
    · simp only [BorshSchema.serialize, coerceInput_nonbig s v hb', bind, Except.bind]
      exact he
    · have hd0 := hd []
      rw [List.append_nil] at hd0
      simp only [BorshSchema.deserialize, Borsh.deserialize, hd0, Except.map]
      rw [coerceOutput_norm s v]

/-! ## Decoder prefix determinism and error persistence -/

theorem take_append_len {α : Type} (l1 l2 : List α) (n : Nat) (h : l1.length = n) :
    (l1 ++ l2).take n = l1 := by
  subst h
  exact List.take_left l1 l2

theorem drop_append_len {α : Type} (l1 l2 : List α) (n : Nat) (h : l1.length = n) :
    (l1 ++ l2).drop n = l2 := by
  subst h
  exact List.drop_left l1 l2

theorem readLE_ext : ∀ w bs n r, readLE w bs = .ok (n, r) →
    ∃ c, bs = c ++ r ∧ ∀ r', readLE w (c ++ r') = .ok (n, r') := by
  intro w
  induction w with
  | zero =>
    intro bs n r h
    simp only [readLE] at h
    cases h
    exact ⟨[], rfl, fun r' => rfl⟩
  | succ w ih =>
    intro bs n r h
    cases bs with
    | nil => simp [readLE] at h
    | cons b bs' =>
      simp only [readLE] at h
      cases hrec : readLE w bs' with
      | error e => rw [hrec] at h; simp [Except.map] at h
      | ok p =>
        rw [hrec] at h
        simp only [Except.map] at h
        cases h
        obtain ⟨c, hc, hext⟩ := ih bs' p.1 p.2 (by rw [hrec])
        refine ⟨b :: c, by simp [hc], fun r' => ?_⟩
        have hstep : readLE (w + 1) ((b :: c) ++ r') =
            (readLE w (c ++ r')).map (fun q => (b + 256 * q.1, q.2)) := rfl
        rw [hstep, hext r']
        rfl

theorem mapRead_ext (w : Nat) (F : Nat → Value) (bs : List Nat) (v : Value) (r : List Nat)
    (h : (readLE w bs).map (fun p => (F p.1, p.2)) = .ok (v, r)) :
    ∃ c, bs = c ++ r ∧ ∀ r', (readLE w (c ++ r')).map (fun p => (F p.1, p.2)) = .ok (v, r') := by
  cases hrec : readLE w bs with
  | error e => rw [hrec] at h; simp [Except.map] at h
  | ok p =>
    rw [hrec] at h
    simp only [Except.map] at h
    cases h
    obtain ⟨c, hc, hext⟩ := readLE_ext w bs p.1 p.2 (by rw [hrec])
    exact ⟨c, hc, fun r' => by rw [hext r']; rfl⟩

theorem decodePrim_ext : ∀ t bs v r, decodePrim t bs = .ok (v, r) →
    ∃ c, bs = c ++ r ∧ ∀ r', decodePrim t (c ++ r') = .ok (v, r') := by
  intro t bs v r h
  cases t <;> simp only [decodePrim] at h ⊢
  case u8 => exact mapRead_ext 1 (fun x => .vnum x) bs v r h
  case u16 => exact mapRead_ext 2 (fun x => .vnum x) bs v r h
  case u32 => exact mapRead_ext 4 (fun x => .vnum x) bs v r h
  case i8 => exact mapRead_ext 1 (fun x => .vnum (toSigned 1 x)) bs v r h
  case i16 => exact mapRead_ext 2 (fun x => .vnum (toSigned 2 x)) bs v r h
  case i32 => exact mapRead_ext 4 (fun x => .vnum (toSigned 4 x)) bs v r h
  case u64 => exact mapRead_ext 8 (fun x => .vbig x) bs v r h
  case u128 => exact mapRead_ext 16 (fun x => .vbig x) bs v r h
  case i64 => exact mapRead_ext 8 (fun x => .vbig (toSigned 8 x)) bs v r h
  case i128 => exact mapRead_ext 16 (fun x => .vbig (toSigned 16 x)) bs v r h
  case f32 => exact mapRead_ext 4 (fun x => .vf32 x) bs v r h
  case f64 => exact mapRead_ext 8 (fun x => .vf64 x) bs v r h
  case bool =>
    cases bs with
    | nil => simp at h
    | cons b bs' =>
      cases h
      exact ⟨[b], rfl, fun r' => rfl⟩
  case str =>
    simp only [bind, Except.bind] at h ⊢
    cases hrec : readLE 4 bs with
    | error e => rw [hrec] at h; simp at h
    | ok p =>
      rw [hrec] at h
      dsimp only at h
      by_cases hlen : p.1 ≤ p.2.length
      · rw [if_pos hlen] at h
        cases hdec : utf8Dec (p.2.take p.1) with
        | none => rw [hdec] at h; simp at h
        | some st =>
          rw [hdec] at h
          cases h
          obtain ⟨c, hc, hext⟩ := readLE_ext 4 bs p.1 p.2 (by rw [hrec])
          have htl : (p.2.take p.1).length = p.1 := by
            simp only [List.length_take]
            omega
          refine ⟨c ++ p.2.take p.1, ?_, fun r' => ?_⟩
          · rw [hc, List.append_assoc, List.take_append_drop]
          · rw [List.append_assoc, hext (p.2.take p.1 ++ r')]
            dsimp only
            rw [if_pos (by simp only [List.length_append]; omega)]
            rw [take_append_len _ _ _ htl, hdec, drop_append_len _ _ _ htl]
      · rw [if_neg hlen] at h
        simp at h

theorem decListE_ext (d : List Nat → Except DecErr (Value × List Nat))
    (hd : ∀ bs v r, d bs = .ok (v, r) → ∃ c, bs = c ++ r ∧ ∀ r', d (c ++ r') = .ok (v, r')) :
    ∀ n bs vs r, decListE d n bs = .ok (vs, r) →
      ∃ c, bs = c ++ r ∧ ∀ r', decListE d n (c ++ r') = .ok (vs, r') := by
  intro n
  induction n with
  | zero =>
    intro bs vs r h
    simp only [decListE] at h
    cases h
    exact ⟨[], rfl, fun r' => rfl⟩
  | succ n ih =>
    intro bs vs r h
    simp only [decListE, bind, Except.bind] at h
    cases h1 : d bs with
    | error e => rw [h1] at h; simp at h
    | ok p =>
      rw [h1] at h
      dsimp only at h
      cases h2 : decListE d n p.2 with
      | error e => rw [h2] at h; simp at h
      | ok q =>
        rw [h2] at h
        dsimp only at h
        cases h
        obtain ⟨c1, hc1, he1⟩ := hd bs p.1 p.2 (by rw [h1])
        obtain ⟨c2, hc2, he2⟩ := ih p.2 q.1 q.2 (by rw [h2])
        refine ⟨c1 ++ c2, by rw [hc1, hc2, List.append_assoc], fun r' => ?_⟩
        rw [List.append_assoc]
        simp only [decListE, bind, Except.bind]
        rw [he1 (c2 ++ r')]
        dsimp only
        rw [he2 r']

theorem decPairsE_ext (dk dv : List Nat → Except DecErr (Value × List Nat))
    (hdk : ∀ bs v r, dk bs = .ok (v, r) → ∃ c, bs = c ++ r ∧ ∀ r', dk (c ++ r') = .ok (v, r'))
    (hdv : ∀ bs v r, dv bs = .ok (v, r) → ∃ c, bs = c ++ r ∧ ∀ r', dv (c ++ r') = .ok (v, r')) :
    ∀ n bs ps r, decPairsE dk dv n bs = .ok (ps, r) →
      ∃ c, bs = c ++ r ∧ ∀ r', decPairsE dk dv n (c ++ r') = .ok (ps, r') := by
  intro n
  induction n with
  | zero =>
    intro bs ps r h
    simp only [decPairsE] at h
    cases h
    exact ⟨[], rfl, fun r' => rfl⟩
  | succ n ih =>
    intro bs ps r h
    simp only [decPairsE, bind, Except.bind] at h
    cases h1 : dk bs with
    | error e => rw [h1] at h; simp at h
    | ok p =>
      rw [h1] at h
      dsimp only at h
      cases h2 : dv p.2 with
      | error e => rw [h2] at h; simp at h
      | ok q =>
        rw [h2] at h
        dsimp only at h
        cases h3 : decPairsE dk dv n q.2 with
        | error e => rw [h3] at h; simp at h
        | ok w =>
          rw [h3] at h
          dsimp only at h
          cases h
          obtain ⟨c1, hc1, he1⟩ := hdk bs p.1 p.2 (by rw [h1])
          obtain ⟨c2, hc2, he2⟩ := hdv p.2 q.1 q.2 (by rw [h2])
          obtain ⟨c3, hc3, he3⟩ := ih q.2 w.1 w.2 (by rw [h3])
          refine ⟨c1 ++ (c2 ++ c3), by rw [hc1, hc2, hc3]; simp [List.append_assoc],
            fun r' => ?_⟩
          simp only [List.append_assoc]
          simp only [decPairsE, bind, Except.bind]
          rw [he1 (c2 ++ (c3 ++ r'))]
          dsimp only
          rw [he2 (c3 ++ r')]
          dsimp only
          rw [he3 r']

theorem decFieldsE_ext (d : Schema → List Nat → Except DecErr (Value × List Nat))
    (hd : ∀ s bs v r, d s bs = .ok (v, r) →
      ∃ c, bs = c ++ r ∧ ∀ r', d s (c ++ r') = .ok (v, r')) :
    ∀ flds bs l r, decFieldsE d flds bs = .ok (l, r) →
      ∃ c, bs = c ++ r ∧ ∀ r', decFieldsE d flds (c ++ r') = .ok (l, r') := by
  intro flds
  induction flds with
  | nil =>
    intro bs l r h
    simp only [decFieldsE] at h
    cases h
    exact ⟨[], rfl, fun r' => rfl⟩
  | cons p rest ih =>
    intro bs l r h
    obtain ⟨k, sq⟩ := p
    simp only [decFieldsE, bind, Except.bind] at h
    cases h1 : d sq bs with
    | error e => rw [h1] at h; simp at h
    | ok q =>
      rw [h1] at h
      dsimp only at h
      cases h2 : decFieldsE d rest q.2 with
      | error e => rw [h2] at h; simp at h
      | ok w =>
        rw [h2] at h
        dsimp only at h
        cases h
        obtain ⟨c1, hc1, he1⟩ := hd sq bs q.1 q.2 (by rw [h1])
        obtain ⟨c2, hc2, he2⟩ := ih q.2 w.1 w.2 (by rw [h2])
        refine ⟨c1 ++ c2, by rw [hc1, hc2, List.append_assoc], fun r' => ?_⟩
        rw [List.append_assoc]
        simp only [decFieldsE, bind, Except.bind]
        rw [he1 (c2 ++ r')]
        dsimp only
        rw [he2 r']

theorem dec_ext : ∀ fuel s bs v r, decodeAux fuel s bs = .ok (v, r) →
    ∃ c, bs = c ++ r ∧ ∀ r', decodeAux fuel s (c ++ r') = .ok (v, r') := by
  intro fuel
  induction fuel with
  | zero => intro s bs v r h; simp [decodeAux] at h
  | succ f ih =>
    intro s bs v r h
    cases s with
    | prim t =>
      simp only [decodeAux] at h ⊢
      exact decodePrim_ext t bs v r h
    | option inner =>
      cases bs with
      | nil => simp [decodeAux] at h
      | cons b bs' =>
        rcases b with _ | b1
        · simp only [decodeAux] at h
          cases h
          exact ⟨[0], rfl, fun r' => rfl⟩
        · rcases b1 with _ | b2
          · simp only [decodeAux] at h
            obtain ⟨c, hc, hext⟩ := ih inner bs' v r h
            refine ⟨1 :: c, by simp [hc], fun r' => ?_⟩
            simp only [List.cons_append, decodeAux]
            exact hext r'
          · simp only [decodeAux] at h
            exact absurd h (by simp)
    | arr inner len =>
      cases len with
      | none =>
        simp only [decodeAux, bind, Except.bind] at h
        cases h1 : readLE 4 bs with
        | error e => rw [h1] at h; simp at h
        | ok p =>
          rw [h1] at h
          dsimp only at h
          cases h2 : decListE (decodeAux f inner) p.1 p.2 with
          | error e => rw [h2] at h; simp at h
          | ok q =>
            rw [h2] at h
            dsimp only at h
            cases h
            obtain ⟨c1, hc1, he1⟩ := readLE_ext 4 bs p.1 p.2 (by rw [h1])
            obtain ⟨c2, hc2, he2⟩ := decListE_ext _ (fun bs2 v2 r2 hh => ih inner bs2 v2 r2 hh)
              p.1 p.2 q.1 q.2 (by rw [h2])
            refine ⟨c1 ++ c2, by rw [hc1, hc2, List.append_assoc], fun r' => ?_⟩
            rw [List.append_assoc]
            simp only [decodeAux, bind, Except.bind]
            rw [he1 (c2 ++ r')]
            dsimp only
            rw [he2 r']
      | some len =>
        simp only [decodeAux] at h
        cases h1 : decListE (decodeAux f inner) len bs with
        | error e => rw [h1] at h; simp [Except.map] at h
        | ok p =>
          rw [h1] at h
          simp only [Except.map] at h
          cases h
          obtain ⟨c, hc, hext⟩ := decListE_ext _ (fun bs2 v2 r2 hh => ih inner bs2 v2 r2 hh)
            len bs p.1 p.2 (by rw [h1])
          refine ⟨c, hc, fun r' => ?_⟩
          simp only [decodeAux]
          rw [hext r']
          rfl
    | set inner =>
      simp only [decodeAux, bind, Except.bind] at h
      cases h1 : readLE 4 bs with
      | error e => rw [h1] at h; simp at h
      | ok p =>
        rw [h1] at h
        dsimp only at h
        cases h2 : decListE (decodeAux f inner) p.1 p.2 with
        | error e => rw [h2] at h; simp at h
        | ok q =>
          rw [h2] at h
          dsimp only at h
          cases h
          obtain ⟨c1, hc1, he1⟩ := readLE_ext 4 bs p.1 p.2 (by rw [h1])
          obtain ⟨c2, hc2, he2⟩ := decListE_ext _ (fun bs2 v2 r2 hh => ih inner bs2 v2 r2 hh)
            p.1 p.2 q.1 q.2 (by rw [h2])
          refine ⟨c1 ++ c2, by rw [hc1, hc2, List.append_assoc], fun r' => ?_⟩
          rw [List.append_assoc]
          simp only [decodeAux, bind, Except.bind]
          rw [he1 (c2 ++ r')]
          dsimp only
          rw [he2 r']
    | map ks vs =>
      simp only [decodeAux, bind, Except.bind] at h
      cases h1 : readLE 4 bs with
      | error e => rw [h1] at h; simp at h
      | ok p =>
        rw [h1] at h
        dsimp only at h
        cases h2 : decPairsE (decodeAux f ks) (decodeAux f vs) p.1 p.2 with
        | error e => rw [h2] at h; simp at h
        | ok q =>
          rw [h2] at h
          dsimp only at h
          cases h
          obtain ⟨c1, hc1, he1⟩ := readLE_ext 4 bs p.1 p.2 (by rw [h1])
          obtain ⟨c2, hc2, he2⟩ := decPairsE_ext _ _
            (fun bs2 v2 r2 hh => ih ks bs2 v2 r2 hh)
            (fun bs2 v2 r2 hh => ih vs bs2 v2 r2 hh)
            p.1 p.2 q.1 q.2 (by rw [h2])
          refine ⟨c1 ++ c2, by rw [hc1, hc2, List.append_assoc], fun r' => ?_⟩
          rw [List.append_assoc]
          simp only [decodeAux, bind, Except.bind]
          rw [he1 (c2 ++ r')]
          dsimp only
          rw [he2 r']
    | struct flds =>
      simp only [decodeAux] at h
      cases h1 : decFieldsE (decodeAux f) flds bs with
      | error e => rw [h1] at h; simp [Except.map] at h
      | ok p =>
        rw [h1] at h
        simp only [Except.map] at h
        cases h
        obtain ⟨c, hc, hext⟩ := decFieldsE_ext _ (fun s2 bs2 v2 r2 hh => ih s2 bs2 v2 r2 hh)
          flds bs p.1 p.2 (by rw [h1])
        refine ⟨c, hc, fun r' => ?_⟩
        simp only [decodeAux]
        rw [hext r']
        rfl
    | enum vars =>
      cases bs with
      | nil => simp [decodeAux] at h
      | cons b bs' =>
        simp only [decodeAux] at h
        cases hv : vars[b]? with
        | none => rw [hv] at h; simp at h
        | some p =>
          rw [hv] at h
          dsimp only at h
          cases h2 : decodeAux f p.2 bs' with
          | error e => rw [h2] at h; simp [Except.map] at h
          | ok q =>
            rw [h2] at h
            simp only [Except.map] at h
            cases h
            obtain ⟨c, hc, hext⟩ := ih p.2 bs' q.1 q.2 (by rw [h2])
            refine ⟨b :: c, by simp [hc], fun r' => ?_⟩
            simp only [List.cons_append, decodeAux]
            rw [hv]
            dsimp only
            rw [hext r']
            rfl

theorem readLE_err : ∀ w bs e, readLE w bs = .error e → e = .unexpectedEndOfBuffer := by
  intro w
  induction w with
  | zero => intro bs e h; simp [readLE] at h
  | succ w ih =>
    intro bs e h
    cases bs with
    | nil =>
      simp only [readLE] at h
      cases h
      rfl
    | cons b bs' =>
      simp only [readLE] at h
      cases h1 : readLE w bs' with
      | error e' =>
        rw [h1] at h
        simp only [Except.map] at h
        cases h
        exact ih bs' _ h1
      | ok p => rw [h1] at h; simp [Except.map] at h

theorem mapRead_pers (w : Nat) (F : Nat → Value) (bs : List Nat) (e : DecErr)
    (h : (readLE w bs).map (fun p => (F p.1, p.2)) = .error e) :
    e = .unexpectedEndOfBuffer := by
  cases hr : readLE w bs with
  | error e' =>
    rw [hr] at h
    simp only [Except.map] at h
    cases h
    exact readLE_err w bs _ hr
  | ok p => rw [hr] at h; simp [Except.map] at h

theorem decodePrim_pers : ∀ t bs e, decodePrim t bs = .error e →
    e ≠ .unexpectedEndOfBuffer → ∀ ext, decodePrim t (bs ++ ext) = .error e := by
  intro t bs e h hne ext
  cases t <;> simp only [decodePrim] at h ⊢
  case u8 => exact absurd (mapRead_pers 1 (fun x => .vnum x) bs e h) hne
  case u16 => exact absurd (mapRead_pers 2 (fun x => .vnum x) bs e h) hne
  case u32 => exact absurd (mapRead_pers 4 (fun x => .vnum x) bs e h) hne
  case i8 => exact absurd (mapRead_pers 1 (fun x => .vnum (toSigned 1 x)) bs e h) hne
  case i16 => exact absurd (mapRead_pers 2 (fun x => .vnum (toSigned 2 x)) bs e h) hne
  case i32 => exact absurd (mapRead_pers 4 (fun x => .vnum (toSigned 4 x)) bs e h) hne
  case u64 => exact absurd (mapRead_pers 8 (fun x => .vbig x) bs e h) hne
  case u128 => exact absurd (mapRead_pers 16 (fun x => .vbig x) bs e h) hne
  case i64 => exact absurd (mapRead_pers 8 (fun x => .vbig (toSigned 8 x)) bs e h) hne
  case i128 => exact absurd (mapRead_pers 16 (fun x => .vbig (toSigned 16 x)) bs e h) hne
  case f32 => exact absurd (mapRead_pers 4 (fun x => .vf32 x) bs e h) hne
  case f64 => exact absurd (mapRead_pers 8 (fun x => .vf64 x) bs e h) hne
  case bool =>
    cases bs with
    | nil =>
      cases h
      exact absurd rfl hne
    | cons b bs' => simp at h
  case str =>
    simp only [bind, Except.bind] at h ⊢
    cases hr : readLE 4 bs with
    | error e' =>
      rw [hr] at h
      dsimp only at h
      cases h
      exact absurd (readLE_err 4 bs _ hr) hne
    | ok p =>
      rw [hr] at h
      dsimp only at h
      by_cases hlen : p.1 ≤ p.2.length
      · rw [if_pos hlen] at h
        cases hdec : utf8Dec (p.2.take p.1) with
        | some st => rw [hdec] at h; simp at h
        | none =>
          rw [hdec] at h
          cases h
          obtain ⟨c, hc, hext⟩ := readLE_ext 4 bs p.1 p.2 hr
          rw [hc, List.append_assoc, hext (p.2 ++ ext)]
          dsimp only
          rw [if_pos (by simp only [List.length_append]; omega)]
          rw [List.take_append_of_le_length hlen, hdec]
      · rw [if_neg hlen] at h
        cases h
        exact absurd rfl hne

theorem decListE_pers (d : List Nat → Except DecErr (Value × List Nat))
    (hde : ∀ bs v r, d bs = .ok (v, r) → ∃ c, bs = c ++ r ∧ ∀ r', d (c ++ r') = .ok (v, r'))
    (hdp : ∀ bs e, d bs = .error e → e ≠ .unexpectedEndOfBuffer →
      ∀ ext, d (bs ++ ext) = .error e) :
    ∀ n bs e, decListE d n bs = .error e → e ≠ .unexpectedEndOfBuffer →
      ∀ ext, decListE d n (bs ++ ext) = .error e := by
  intro n
  induction n with
  | zero => intro bs e h; simp [decListE] at h
  | succ n ih =>
    intro bs e h hne ext
    simp only [decListE, bind, Except.bind] at h ⊢
    cases h1 : d bs with
    | error e' =>
      rw [h1] at h
      dsimp only at h
      cases h
      rw [hdp bs _ h1 hne ext]
    | ok p =>
      rw [h1] at h
      dsimp only at h
      cases h2 : decListE d n p.2 with
      | error e2 =>
        rw [h2] at h
        dsimp only at h
        cases h
        obtain ⟨c, hc, hext⟩ := hde bs p.1 p.2 h1
        rw [hc, List.append_assoc, hext (p.2 ++ ext)]
        dsimp only
        rw [ih p.2 _ h2 hne ext]
      | ok q =>
        rw [h2] at h
        dsimp only at h
        simp at h

theorem decPairsE_pers (dk dv : List Nat → Except DecErr (Value × List Nat))
    (hke : ∀ bs v r, dk bs = .ok (v, r) → ∃ c, bs = c ++ r ∧ ∀ r', dk (c ++ r') = .ok (v, r'))
    (hkp : ∀ bs e, dk bs = .error e → e ≠ .unexpectedEndOfBuffer →
      ∀ ext, dk (bs ++ ext) = .error e)
    (hve : ∀ bs v r, dv bs = .ok (v, r) → ∃ c, bs = c ++ r ∧ ∀ r', dv (c ++ r') = .ok (v, r'))
    (hvp : ∀ bs e, dv bs = .error e → e ≠ .unexpectedEndOfBuffer →
      ∀ ext, dv (bs ++ ext) = .error e) :
    ∀ n bs e, decPairsE dk dv n bs = .error e → e ≠ .unexpectedEndOfBuffer →
      ∀ ext, decPairsE dk dv n (bs ++ ext) = .error e := by
  intro n
  induction n with
  | zero => intro bs e h; simp [decPairsE] at h
  | succ n ih =>
    intro bs e h hne ext
    simp only [decPairsE, bind, Except.bind] at h ⊢
    cases h1 : dk bs with
    | error e' =>
      rw [h1] at h
      dsimp only at h
      cases h
      rw [hkp bs _ h1 hne ext]
    | ok p =>
      rw [h1] at h
      dsimp only at h
      obtain ⟨c1, hc1, he1⟩ := hke bs p.1 p.2 h1
      cases h2 : dv p.2 with
      | error e2 =>
        rw [h2] at h
        dsimp only at h
        cases h
        rw [hc1, List.append_assoc, he1 (p.2 ++ ext)]
        dsimp only
        rw [hvp p.2 _ h2 hne ext]
      | ok q =>
        rw [h2] at h
        dsimp only at h
        obtain ⟨c2, hc2, he2⟩ := hve p.2 q.1 q.2 h2
        cases h3 : decPairsE dk dv n q.2 with
        | error e3 =>
          rw [h3] at h
          dsimp only at h
          cases h
          rw [hc1, List.append_assoc, he1 (p.2 ++ ext)]
          dsimp only
          rw [hc2, List.append_assoc, he2 (q.2 ++ ext)]
          dsimp only
          rw [ih q.2 _ h3 hne ext]
        | ok w =>
          rw [h3] at h
          dsimp only at h
          simp at h

theorem decFieldsE_pers (d : Schema → List Nat → Except DecErr (Value × List Nat))
    (hde : ∀ s bs v r, d s bs = .ok (v, r) →
      ∃ c, bs = c ++ r ∧ ∀ r', d s (c ++ r') = .ok (v, r'))
    (hdp : ∀ s bs e, d s bs = .error e → e ≠ .unexpectedEndOfBuffer →
      ∀ ext, d s (bs ++ ext) = .error e) :
    ∀ flds bs e, decFieldsE d flds bs = .error e → e ≠ .unexpectedEndOfBuffer →
      ∀ ext, decFieldsE d flds (bs ++ ext) = .error e := by
  intro flds
  induction flds with
  | nil => intro bs e h; simp [decFieldsE] at h
  | cons p rest ih =>
    intro bs e h hne ext
    obtain ⟨k, sq⟩ := p
    simp only [decFieldsE, bind, Except.bind] at h ⊢
    cases h1 : d sq bs with
    | error e' =>
      rw [h1] at h
      dsimp only at h
      cases h
      rw [hdp sq bs _ h1 hne ext]
    | ok q =>
      rw [h1] at h
      dsimp only at h
      cases h2 : decFieldsE d rest q.2 with
      | error e2 =>
        rw [h2] at h
        dsimp only at h
        cases h
        obtain ⟨c, hc, hext⟩ := hde sq bs q.1 q.2 h1
        rw [hc, List.append_assoc, hext (q.2 ++ ext)]
        dsimp only
        rw [ih q.2 _ h2 hne ext]
      | ok w =>
        rw [h2] at h
        dsimp only at h
        simp at h

theorem dec_pers : ∀ fuel s bs e, decodeAux fuel s bs = .error e →
    e ≠ .unexpectedEndOfBuffer → ∀ ext, decodeAux fuel s (bs ++ ext) = .error e := by
  intro fuel
  induction fuel with
  | zero =>
    intro s bs e h hne ext
    simp only [decodeAux] at h
    cases h
    exact absurd rfl hne
  | succ f ih =>
    intro s bs e h hne ext
    cases s with
    | prim t =>
      simp only [decodeAux] at h ⊢
      exact decodePrim_pers t bs e h hne ext
    | option inner =>
      cases bs with
      | nil =>
        simp only [decodeAux] at h
        cases h
        exact absurd rfl hne
      | cons b bs' =>
        rcases b with _ | b1
        · simp [decodeAux] at h
        · rcases b1 with _ | b2
          · simp only [decodeAux] at h ⊢
            exact ih inner bs' e h hne ext
          · simp only [decodeAux] at h ⊢
            exact h
    | arr inner len =>
      cases len with
      | none =>
        simp only [decodeAux, bind, Except.bind] at h ⊢
        cases h1 : readLE 4 bs with
        | error e1 =>
          rw [h1] at h
          dsimp only at h
          cases h
          exact absurd (readLE_err 4 bs _ h1) hne
        | ok p =>
          rw [h1] at h
          dsimp only at h
          cases h2 : decListE (decodeAux f inner) p.1 p.2 with
          | error e2 =>
            rw [h2] at h
            dsimp only at h
            cases h
            obtain ⟨c1, hc1, he1⟩ := readLE_ext 4 bs p.1 p.2 h1
            rw [hc1, List.append_assoc, he1 (p.2 ++ ext)]
            dsimp only
            rw [decListE_pers _ (fun bs2 v2 r2 hh => dec_ext f inner bs2 v2 r2 hh)
              (fun bs2 e2 hh hn2 x2 => ih inner bs2 e2 hh hn2 x2) p.1 p.2 _ h2 hne ext]
          | ok q =>
            rw [h2] at h
            dsimp only at h
            simp at h
      | some len =>
        simp only [decodeAux] at h ⊢
        cases h1 : decListE (decodeAux f inner) len bs with
        | error e1 =>
          rw [h1] at h
          simp only [Except.map] at h
          cases h
          rw [decListE_pers _ (fun bs2 v2 r2 hh => dec_ext f inner bs2 v2 r2 hh)
            (fun bs2 e2 hh hn2 x2 => ih inner bs2 e2 hh hn2 x2) len bs _ h1 hne ext]
          rfl
        | ok p =>
          rw [h1] at h
          simp [Except.map] at h
    | set inner =>
      simp only [decodeAux, bind, Except.bind] at h ⊢
      cases h1 : readLE 4 bs with
      | error e1 =>
        rw [h1] at h
        dsimp only at h
        cases h
        exact absurd (readLE_err 4 bs _ h1) hne
      | ok p =>
        rw [h1] at h
        dsimp only at h
        cases h2 : decListE (decodeAux f inner) p.1 p.2 with
        | error e2 =>
          rw [h2] at h
          dsimp only at h
          cases h
          obtain ⟨c1, hc1, he1⟩ := readLE_ext 4 bs p.1 p.2 h1
          rw [hc1, List.append_assoc, he1 (p.2 ++ ext)]
          dsimp only
          rw [decListE_pers _ (fun bs2 v2 r2 hh => dec_ext f inner bs2 v2 r2 hh)
            (fun bs2 e2 hh hn2 x2 => ih inner bs2 e2 hh hn2 x2) p.1 p.2 _ h2 hne ext]
        | ok q =>
          rw [h2] at h
          dsimp only at h
          simp at h
    | map ks vs =>
      simp only [decodeAux, bind, Except.bind] at h ⊢
      cases h1 : readLE 4 bs with
      | error e1 =>
        rw [h1] at h
        dsimp only at h
        cases h
        exact absurd (readLE_err 4 bs _ h1) hne
      | ok p =>
        rw [h1] at h
        dsimp only at h
        cases h2 : decPairsE (decodeAux f ks) (decodeAux f vs) p.1 p.2 with
        | error e2 =>
          rw [h2] at h
          dsimp only at h
          cases h
          obtain ⟨c1, hc1, he1⟩ := readLE_ext 4 bs p.1 p.2 h1
          rw [hc1, List.append_assoc, he1 (p.2 ++ ext)]
          dsimp only
          rw [decPairsE_pers _ _
            (fun bs2 v2 r2 hh => dec_ext f ks bs2 v2 r2 hh)
            (fun bs2 e2 hh hn2 x2 => ih ks bs2 e2 hh hn2 x2)
            (fun bs2 v2 r2 hh => dec_ext f vs bs2 v2 r2 hh)
            (fun bs2 e2 hh hn2 x2 => ih vs bs2 e2 hh hn2 x2) p.1 p.2 _ h2 hne ext]
        | ok q =>
          rw [h2] at h
          dsimp only at h
          simp at h
    | struct flds =>
      simp only [decodeAux] at h ⊢
      cases h1 : decFieldsE (decodeAux f) flds bs with
      | error e1 =>
        rw [h1] at h
        simp only [Except.map] at h
        cases h
        rw [decFieldsE_pers _ (fun s2 bs2 v2 r2 hh => dec_ext f s2 bs2 v2 r2 hh)
          (fun s2 bs2 e2 hh hn2 x2 => ih s2 bs2 e2 hh hn2 x2) flds bs _ h1 hne ext]
        rfl
      | ok p =>
        rw [h1] at h
        simp [Except.map] at h
    | enum vars =>
      cases bs with
      | nil =>
        simp only [decodeAux] at h
        cases h
        exact absurd rfl hne
      | cons b bs' =>
        simp only [decodeAux] at h
        simp only [List.cons_append, decodeAux]
        cases hv : vars[b]? with
        | none =>
          rw [hv] at h
          dsimp only at h
          exact h
        | some p =>
          obtain ⟨nm, ps⟩ := p
          rw [hv] at h
          dsimp only at h ⊢
          cases h2 : decodeAux f ps bs' with
          | error e2 =>
            rw [h2] at h
            simp only [Except.map] at h
            cases h
            rw [ih ps bs' _ h2 hne ext]
            rfl
          | ok q =>
            rw [h2] at h
            simp [Except.map] at h

theorem truncation_eof (s : Schema) (v : Value) (bs : List Nat) (k : Nat)
    (hwf : WF s v = true) (henc : Borsh.serialize s v = .ok bs) (hk : k < bs.length) :
    Borsh.decodeRun s (bs.take k) = .error .unexpectedEndOfBuffer := by
  obtain ⟨bs0, he0, hd0⟩ := borsh_rt s v hwf
  rw [henc] at he0
  cases he0
  have hdbs : decodeAux (schemaSize s) s bs = .ok (norm s v, []) := by
    have h6 := hd0 []
    simp only [Borsh.decodeRun] at h6
    rwa [List.append_nil] at h6
  simp only [Borsh.decodeRun]
  cases hdec : decodeAux (schemaSize s) s (bs.take k) with
  | ok p =>
    exfalso
    obtain ⟨c, hc, hext⟩ := dec_ext (schemaSize s) s (bs.take k) p.1 p.2 hdec
    have h2 := hext (p.2 ++ bs.drop k)
    rw [← List.append_assoc, ← hc, List.take_append_drop] at h2
    rw [hdbs] at h2
    simp only [Except.ok.injEq, Prod.mk.injEq] at h2
    have h4 : (p.2 ++ bs.drop k).length = 0 := by rw [← h2.2]; rfl
    simp only [List.length_append, List.length_drop] at h4
    omega
  | error e =>
    by_cases heof : e = .unexpectedEndOfBuffer
    · rw [heof]
    · exfalso
      have h5 := dec_pers (schemaSize s) s (bs.take k) e hdec heof (bs.drop k)
      rw [List.take_append_drop] at h5
      rw [h5] at hdbs
      exact Except.noConfusion hdbs

theorem decListE_congr (d d' : List Nat → Except DecErr (Value × List Nat))
    (hd : ∀ bs, d bs = d' bs) : ∀ n bs, decListE d n bs = decListE d' n bs := by
  intro n
  induction n with
  | zero => intro bs; rfl
  | succ n ih =>
    intro bs
    simp only [decListE, bind, Except.bind, hd]
    cases d' bs with
    | error e => rfl
    | ok p =>
      dsimp only
      rw [ih p.2]

theorem decPairsE_congr (dk dk' dv dv' : List Nat → Except DecErr (Value × List Nat))
    (hk : ∀ bs, dk bs = dk' bs) (hv : ∀ bs, dv bs = dv' bs) :
    ∀ n bs, decPairsE dk dv n bs = decPairsE dk' dv' n bs := by
  intro n
  induction n with
  | zero => intro bs; rfl
  | succ n ih =>
    intro bs
    simp only [decPairsE, bind, Except.bind, hk, hv]
    cases dk' bs with
    | error e => rfl
    | ok p =>
      dsimp only
      cases dv' p.2 with
      | error e => rfl
      | ok q =>
        dsimp only
        rw [ih q.2]

theorem decFieldsE_congr (d d' : Schema → List Nat → Except DecErr (Value × List Nat)) :
    ∀ flds bs, (∀ p ∈ flds, ∀ bs2, d p.2 bs2 = d' p.2 bs2) →
      decFieldsE d flds bs = decFieldsE d' flds bs := by
  intro flds
  induction flds with
  | nil => intro bs _; rfl
  | cons q rest ih =>
    intro bs hd
    obtain ⟨k, sq⟩ := q
    simp only [decFieldsE, bind, Except.bind]
    rw [hd (k, sq) (by simp) bs]
    cases d' sq bs with
    | error e => rfl
    | ok p =>
      dsimp only
      rw [ih p.2 (fun p hp bs2 => hd p (List.mem_cons_of_mem _ hp) bs2)]

theorem getElem?_mem_pair : ∀ (l : List (String × Schema)) (i : Nat) (p : String × Schema),
    l[i]? = some p → p ∈ l := by
  intro l
  induction l with
  | nil => intro i p h; simp at h
  | cons a as ih =>
    intro i p h
    cases i with
    | zero =>
      simp only [List.getElem?_cons_zero, Option.some.injEq] at h
      simp [h]
    | succ i =>
      simp only [List.getElem?_cons_succ] at h
      exact List.mem_cons_of_mem a (ih i p h)

theorem dec_congr : ∀ fuel fuel' s bs, schemaSize s ≤ fuel → schemaSize s ≤ fuel' →
    decodeAux fuel s bs = decodeAux fuel' s bs := by
  intro fuel
  induction fuel with
  | zero =>
    intro fuel' s bs h _
    have := schemaSize_pos s
    omega
  | succ f ih =>
    intro fuel' s bs h h'
    have hpos := schemaSize_pos s
    obtain ⟨f', rfl⟩ : ∃ g, fuel' = g + 1 := ⟨fuel' - 1, by omega⟩
    cases s with
    | prim t => rfl
    | option inner =>
      have h1 : schemaSize inner ≤ f := by simp only [schemaSize] at h; omega
      have h2 : schemaSize inner ≤ f' := by simp only [schemaSize] at h'; omega
      cases bs with
      | nil => rfl
      | cons b r =>
        rcases b with _ | b1
        · rfl
        · rcases b1 with _ | b2
          · simp only [decodeAux]
            exact ih f' inner r h1 h2
          · rfl
    | arr inner len =>
      have h1 : schemaSize inner ≤ f := by simp only [schemaSize] at h; omega
      have h2 : schemaSize inner ≤ f' := by simp only [schemaSize] at h'; omega
      have hdl : ∀ n bs2, decListE (decodeAux f inner) n bs2
          = decListE (decodeAux f' inner) n bs2 :=
        decListE_congr _ _ (fun bs2 => ih f' inner bs2 h1 h2)
      cases len with
      | none =>
        simp only [decodeAux, bind, Except.bind]
        cases readLE 4 bs with
        | error e => rfl
        | ok p =>
          dsimp only
          rw [hdl p.1 p.2]
      | some len =>
        simp only [decodeAux]
        rw [hdl len bs]
    | set inner =>
      have h1 : schemaSize inner ≤ f := by simp only [schemaSize] at h; omega
      have h2 : schemaSize inner ≤ f' := by simp only [schemaSize] at h'; omega
      have hdl : ∀ n bs2, decListE (decodeAux f inner) n bs2
          = decListE (decodeAux f' inner) n bs2 :=
        decListE_congr _ _ (fun bs2 => ih f' inner bs2 h1 h2)
      simp only [decodeAux, bind, Except.bind]
      cases readLE 4 bs with
      | error e => rfl
      | ok p =>
        dsimp only
        rw [hdl p.1 p.2]
    | map ks vs =>
      have h1 : schemaSize ks ≤ f ∧ schemaSize vs ≤ f := by
        simp only [schemaSize] at h
        have := schemaSize_pos ks
        have := schemaSize_pos vs
        omega
      have h2 : schemaSize ks ≤ f' ∧ schemaSize vs ≤ f' := by
        simp only [schemaSize] at h'
        have := schemaSize_pos ks
        have := schemaSize_pos vs
        omega
      have hdp : ∀ n bs2, decPairsE (decodeAux f ks) (decodeAux f vs) n bs2
          = decPairsE (decodeAux f' ks) (decodeAux f' vs) n bs2 :=
        decPairsE_congr _ _ _ _ (fun bs2 => ih f' ks bs2 h1.1 h2.1)
          (fun bs2 => ih f' vs bs2 h1.2 h2.2)
      simp only [decodeAux, bind, Except.bind]
      cases readLE 4 bs with
      | error e => rfl
      | ok p =>
        dsimp only
        rw [hdp p.1 p.2]
    | struct flds =>
      have hb : ∀ p ∈ flds, schemaSize p.2 ≤ f ∧ schemaSize p.2 ≤ f' := by
        intro p hp
        have := schemaSizeList_le flds p hp
        simp only [schemaSize] at h h'
        omega
      simp only [decodeAux]
      rw [decFieldsE_congr _ _ flds bs
        (fun p hp bs2 => ih f' p.2 bs2 (hb p hp).1 (hb p hp).2)]
    | enum vars =>
      cases bs with
      | nil => rfl
      | cons b r =>
        simp only [decodeAux]
        cases hv : vars[b]? with
        | none => rfl
        | some p =>
          have hmem := getElem?_mem_pair vars b p hv
          have hle := schemaSizeList_le vars p hmem
          obtain ⟨nm, ps⟩ := p
          dsimp only
          rw [ih f' ps r (by simp only [schemaSize] at h; simp at hle; omega)
            (by simp only [schemaSize] at h'; simp at hle; omega)]

theorem readLE_lt : ∀ w bs n r, (∀ b ∈ bs, b < 256) → readLE w bs = .ok (n, r) →
    n < 256 ^ w := by
  intro w
  induction w with
  | zero =>
    intro bs n r _ h
    simp only [readLE, Except.ok.injEq, Prod.mk.injEq] at h
    omega
  | succ w ih =>
    intro bs n r hbytes h
    cases bs with
    | nil => simp [readLE] at h
    | cons b bs' =>
      simp only [readLE] at h
      cases h1 : readLE w bs' with
      | error e => rw [h1] at h; simp [Except.map] at h
      | ok p =>
        rw [h1] at h
        simp only [Except.map, Except.ok.injEq, Prod.mk.injEq] at h
        have hp := ih bs' p.1 p.2 (fun x hx => hbytes x (List.mem_cons_of_mem b hx)) (by rw [h1])
        have hb := hbytes b (by simp)
        have hpow : 256 ^ (w + 1) = 256 ^ w * 256 := by ring
        omega

theorem two_pow_8w (w : Nat) : (2 : Int) ^ (8 * w) = (256 : Int) ^ w := by
  rw [pow_mul]
  norm_num

theorem wrapU_id (w : Nat) (n : Nat) (h : n < 256 ^ w) : wrapU w (n : Int) = (n : Int) := by
  unfold wrapU
  rw [two_pow_8w]
  exact Int.emod_eq_of_lt (Int.ofNat_nonneg n) (by exact_mod_cast h)

theorem wrapI_toSigned (w : Nat) (n : Nat) (h : n < 256 ^ w) :
    wrapI w (toSigned w n) = toSigned w n := by
  have hemod : (toSigned w n).emod ((2 : Int) ^ (8 * w)) = (n : Int) := by
    rw [two_pow_8w]
    unfold toSigned
    by_cases h2 : 2 * n < 256 ^ w
    · rw [if_pos h2]
      exact Int.emod_eq_of_lt (Int.ofNat_nonneg n) (by exact_mod_cast h)
    · rw [if_neg h2]
      have hc : ((256 ^ w : Nat) : Int) = (256 : Int) ^ w := by push_cast; ring
      rw [hc]
      show ((n : Int) - (256 : Int) ^ w) % ((256 : Int) ^ w) = (n : Int)
      rw [Int.sub_emod, Int.emod_self, sub_zero, Int.emod_emod_of_dvd _ dvd_rfl]
      exact Int.emod_eq_of_lt (Int.ofNat_nonneg n) (by exact_mod_cast h)
  unfold wrapI
  rw [hemod]
  simp

theorem decodePrim_conv (t : PrimTag) (bs : List Nat) (v : Value) (r : List Nat)
    (hbytes : ∀ b ∈ bs, b < 256) (ht : isConverterKind t = true)
    (h : decodePrim t bs = .ok (v, r)) : convElem t v = .ok v := by
  cases t <;> simp only [isConverterKind] at ht <;> simp only [decodePrim] at h
  case u64 => exact Bool.noConfusion ht
  case u128 => exact Bool.noConfusion ht
  case i128 => exact Bool.noConfusion ht
  case bool => exact Bool.noConfusion ht
  case str => exact Bool.noConfusion ht
  case u8 =>
    cases h1 : readLE 1 bs with
    | error e => rw [h1] at h; simp [Except.map] at h
    | ok p =>
      rw [h1] at h
      simp only [Except.map, Except.ok.injEq, Prod.mk.injEq] at h
      rw [← h.1]
      simp only [convElem, convElemU]
      rw [wrapU_id 1 p.1 (readLE_lt 1 bs p.1 p.2 hbytes (by rw [h1]))]
  case u16 =>
    cases h1 : readLE 2 bs with
    | error e => rw [h1] at h; simp [Except.map] at h
    | ok p =>
      rw [h1] at h
      simp only [Except.map, Except.ok.injEq, Prod.mk.injEq] at h
      rw [← h.1]
      simp only [convElem, convElemU]
      rw [wrapU_id 2 p.1 (readLE_lt 2 bs p.1 p.2 hbytes (by rw [h1]))]
  case u32 =>
    cases h1 : readLE 4 bs with
    | error e => rw [h1] at h; simp [Except.map] at h
    | ok p =>
      rw [h1] at h
      simp only [Except.map, Except.ok.injEq, Prod.mk.injEq] at h
      rw [← h.1]
      simp only [convElem, convElemU]
      rw [wrapU_id 4 p.1 (readLE_lt 4 bs p.1 p.2 hbytes (by rw [h1]))]
  case i8 =>
    cases h1 : readLE 1 bs with
    | error e => rw [h1] at h; simp [Except.map] at h
    | ok p =>
      rw [h1] at h
      simp only [Except.map, Except.ok.injEq, Prod.mk.injEq] at h
      rw [← h.1]
      simp only [convElem, convElemI]
      rw [wrapI_toSigned 1 p.1 (readLE_lt 1 bs p.1 p.2 hbytes (by rw [h1]))]
  case i16 =>
    cases h1 : readLE 2 bs with
    | error e => rw [h1] at h; simp [Except.map] at h
    | ok p =>
      rw [h1] at h
      simp only [Except.map, Except.ok.injEq, Prod.mk.injEq] at h
      rw [← h.1]
      simp only [convElem, convElemI]
      rw [wrapI_toSigned 2 p.1 (readLE_lt 2 bs p.1 p.2 hbytes (by rw [h1]))]
  case i32 =>
    cases h1 : readLE 4 bs with
    | error e => rw [h1] at h; simp [Except.map] at h
    | ok p =>
      rw [h1] at h
      simp only [Except.map, Except.ok.injEq, Prod.mk.injEq] at h
      rw [← h.1]
      simp only [convElem, convElemI]
      rw [wrapI_toSigned 4 p.1 (readLE_lt 4 bs p.1 p.2 hbytes (by rw [h1]))]
  case i64 =>
    cases h1 : readLE 8 bs with
    | error e => rw [h1] at h; simp [Except.map] at h
    | ok p =>
      rw [h1] at h
      simp only [Except.map, Except.ok.injEq, Prod.mk.injEq] at h
      rw [← h.1]
      simp only [convElem, convElemBig]
      rw [wrapI_toSigned 8 p.1 (readLE_lt 8 bs p.1 p.2 hbytes (by rw [h1]))]
  case f32 =>
    cases h1 : readLE 4 bs with
    | error e => rw [h1] at h; simp [Except.map] at h
    | ok p =>
      rw [h1] at h
      simp only [Except.map, Except.ok.injEq, Prod.mk.injEq] at h
      rw [← h.1]
      rfl
  case f64 =>
    cases h1 : readLE 8 bs with
    | error e => rw [h1] at h; simp [Except.map] at h
    | ok p =>
      rw [h1] at h
      simp only [Except.map, Except.ok.injEq, Prod.mk.injEq] at h
      rw [← h.1]
      rfl

theorem decListE_prim_conv (t : PrimTag) (ht : isConverterKind t = true) :
    ∀ n bs vs r, (∀ b ∈ bs, b < 256) →
      decListE (decodePrim t) n bs = .ok (vs, r) →
      ∀ v ∈ vs, convElem t v = .ok v := by
  intro n
  induction n with
  | zero =>
    intro bs vs r _ h v hv
    simp only [decListE, Except.ok.injEq, Prod.mk.injEq] at h
    rw [← h.1] at hv
    simp at hv
  | succ n ih =>
    intro bs vs r hbytes h v hv
    simp only [decListE, bind, Except.bind] at h
    cases h1 : decodePrim t bs with
    | error e =>
      rw [h1] at h
      dsimp only at h
      simp at h
    | ok p =>
      rw [h1] at h
      dsimp only at h
      cases h2 : decListE (decodePrim t) n p.2 with
      | error e =>
        rw [h2] at h
        dsimp only at h
        simp at h
      | ok q =>
        rw [h2] at h
        dsimp only at h
        simp only [Except.ok.injEq, Prod.mk.injEq] at h
        obtain ⟨c, hc, _⟩ := decodePrim_ext t bs p.1 p.2 (by rw [h1])
        rw [← h.1] at hv
        rcases List.mem_cons.mp hv with hv1 | hv2
        · rw [hv1]
          exact decodePrim_conv t bs p.1 p.2 hbytes ht (by rw [h1])
        · have hrb : ∀ b ∈ p.2, b < 256 := by
            intro b hb
            exact hbytes b (by rw [hc]; exact List.mem_append_right c hb)
          exact ih p.2 q.1 q.2 hrb (by rw [h2]) v hv2

theorem convP0Elems_fix (t : PrimTag) (xs : List Value) (ht : isConverterKind t = true)
    (h : ∀ x ∈ xs, convElem t x = .ok x) : convP0Elems t xs = .vtyped t xs := by
  unfold convP0Elems
  rw [if_pos ht]
  congr 1
  induction xs with
  | nil => rfl
  | cons a as ih =>
    simp only [List.map_cons]
    rw [h a (by simp)]
    dsimp only
    rw [ih (fun x hx => h x (List.mem_cons_of_mem a hx))]

theorem convertAuxP0_prim_id : ∀ fuel x t, convertAuxP0 fuel none x (.prim t) = x := by
  intro fuel x t
  cases fuel with
  | zero => rfl
  | succ f => cases x <;> rfl

theorem visitAux_prim : ∀ fuel x t c, visitAux fuel x (.prim t) c = .ok x := by
  intro fuel x t c
  cases fuel with
  | zero => rfl
  | succ f => cases x <;> rfl

theorem mapE_ok_id {ε : Type} (f : Value → Except ε Value) :
    ∀ xs, (∀ x ∈ xs, f x = .ok x) → mapE f xs = .ok xs := by
  intro xs
  induction xs with
  | nil => intro _; rfl
  | cons a as ih =>
    intro h
    simp only [mapE, bind, Except.bind]
    rw [h a (by simp)]
    dsimp only
    rw [ih (fun x hx => h x (List.mem_cons_of_mem a hx))]

theorem vecTAT_conv (t : PrimTag) (ht : isConverterKind t = true) :
    vecTypedArrayType (.prim t) = some t := by
  cases t <;> first | rfl | exact Bool.noConfusion ht

theorem vecP0_top (t : PrimTag) (bs : List Nat) (xs : List Value)
    (ht : isConverterKind t = true) (hbytes : ∀ b ∈ bs, b < 256)
    (h : Borsh.deserialize (.arr (.prim t) none) bs = .ok (.varr xs)) :
    BorshSchemaP0.deserialize ⟨.arr (.prim t) none, vecTypedArrayType (.prim t)⟩ bs
      = .ok (.vtyped t xs) := by
  have helems : ∀ x ∈ xs, convElem t x = .ok x := by
    simp only [Borsh.deserialize, Borsh.decodeRun] at h
    have hss : schemaSize (Schema.arr (.prim t) none) = 2 := rfl
    rw [hss] at h
    simp only [decodeAux, bind, Except.bind] at h
    cases h1 : readLE 4 bs with
    | error e => rw [h1] at h; simp [Except.map] at h
    | ok p =>
      rw [h1] at h
      dsimp only at h
      cases h2 : decListE (fun x => decodePrim t x) p.1 p.2 with
      | error e => rw [h2] at h; simp [Except.map] at h
      | ok q =>
        rw [h2] at h
        dsimp only at h
        simp only [Except.map, Except.ok.injEq, Value.varr.injEq] at h
        obtain ⟨c, hc, _⟩ := readLE_ext 4 bs p.1 p.2 h1
        have hrb : ∀ b ∈ p.2, b < 256 := fun b hb =>
          hbytes b (by rw [hc]; exact List.mem_append_right c hb)
        have h2' : decListE (decodePrim t) p.1 p.2 = .ok (xs, q.2) := by
          rw [← h]
          exact h2
        exact decListE_prim_conv t ht p.1 p.2 xs q.2 hrb h2'
  simp only [BorshSchemaP0.deserialize]
  rw [h]
  simp only [Except.map]
  rw [vecTAT_conv t ht]
  have hss : schemaSize (Schema.arr (.prim t) none) = 2 := rfl
  rw [hss]
  simp only [convertAuxP0]
  rw [convP0Elems_fix t xs ht helems]

theorem enum_encode_disc (vars : List (String × Schema)) (name : String) (pv : Value)
    (i : Nat) (ps : Schema) (bs : List Nat) (hlen : vars.length ≤ 256)
    (hfv : findVariant name vars = some (i, ps))
    (h : Borsh.serialize (.enum vars) (.vobj [(name, pv)]) = .ok bs) :
    ∃ payload, Borsh.serialize ps pv = .ok payload ∧ bs = i :: payload := by
  simp only [Borsh.serialize] at h ⊢
  rw [show schemaSize (Schema.enum vars) = schemaSizeList vars + 1 from rfl] at h
  simp only [encodeAux] at h
  rw [hfv] at h
  dsimp only at h
  cases h1 : encodeAux (schemaSizeList vars) ps pv with
  | error e => rw [h1] at h; simp [Except.map] at h
  | ok payload =>
    rw [h1] at h
    simp only [Except.map, Except.ok.injEq] at h
    obtain ⟨_, hi, hmem⟩ := findVariant_spec vars name i ps hfv
    have hsz : schemaSize ps + 1 ≤ schemaSizeList vars :=
      schemaSizeList_le vars (name, ps) hmem
    refine ⟨payload, ?_, ?_⟩
    · rw [encodeAux_congr (schemaSize ps) (schemaSizeList vars) ps pv le_rfl (by omega)]
      exact h1
    · rw [← h, Nat.mod_eq_of_lt (by omega)]

theorem enum_decode_disc (vars : List (String × Schema)) (i : Nat) (name : String)
    (ps : Schema) (bs : List Nat) (hv : vars[i]? = some (name, ps)) :
    Borsh.decodeRun (.enum vars) (i :: bs)
      = (Borsh.decodeRun ps bs).map (fun p => (.vobj [(name, p.1)], p.2)) := by
  simp only [Borsh.decodeRun]
  rw [show schemaSize (Schema.enum vars) = schemaSizeList vars + 1 from rfl]
  simp only [decodeAux]
  rw [hv]
  dsimp only
  have hmem := getElem?_mem_pair vars i (name, ps) hv
  have hsz : schemaSize ps + 1 ≤ schemaSizeList vars :=
    schemaSizeList_le vars (name, ps) hmem
  rw [dec_congr (schemaSizeList vars) (schemaSize ps) ps bs (by omega) le_rfl]

theorem enum_decode_bad (vars : List (String × Schema)) (i : Nat) (bs : List Nat)
    (hlen : vars.length ≤ i) :
    Borsh.decodeRun (.enum vars) (i :: bs) = .error .invalidEnumDiscriminant := by
  simp only [Borsh.decodeRun]
  rw [show schemaSize (Schema.enum vars) = schemaSizeList vars + 1 from rfl]
  simp only [decodeAux]
  rw [List.getElem?_eq_none hlen]

theorem serialize_big_forms (s : Schema) (v : Value) (n : Int) (hbig : isBig64or128 s = true)
    (hv : bigIntOf v = some n) :
    BorshSchema.serialize s v = Borsh.serialize s (.vbig n) := by
  simp only [BorshSchema.serialize, coerceInput_big s v n hbig hv, bind, Except.bind]

theorem deser_u64_vbig (bs : List Nat) (v : Value)
    (h : BorshSchema.deserialize (.prim .u64) bs = .ok v) : ∃ n, v = .vbig n := by
  simp only [BorshSchema.deserialize, Borsh.deserialize, Borsh.decodeRun, decodeAux,
    schemaSize, decodePrim] at h
  cases h1 : readLE 8 bs with
  | error e => rw [h1] at h; simp [Except.map] at h
  | ok p =>
    rw [h1] at h
    simp only [Except.map, Except.ok.injEq] at h
    exact ⟨p.1, h.symm⟩

theorem deser_i64_vbig (bs : List Nat) (v : Value)
    (h : BorshSchema.deserialize (.prim .i64) bs = .ok v) : ∃ n, v = .vbig n := by
  simp only [BorshSchema.deserialize, Borsh.deserialize, Borsh.decodeRun, decodeAux,
    schemaSize, decodePrim] at h
  cases h1 : readLE 8 bs with
  | error e => rw [h1] at h; simp [Except.map] at h
  | ok p =>
    rw [h1] at h
    simp only [Except.map, Except.ok.injEq] at h
    exact ⟨toSigned 8 p.1, h.symm⟩

theorem deser_u128_vbig (bs : List Nat) (v : Value)
    (h : BorshSchema.deserialize (.prim .u128) bs = .ok v) : ∃ n, v = .vbig n := by
  simp only [BorshSchema.deserialize, Borsh.deserialize, Borsh.decodeRun, decodeAux,
    schemaSize, decodePrim] at h
  cases h1 : readLE 16 bs with
  | error e => rw [h1] at h; simp [Except.map] at h
  | ok p =>
    rw [h1] at h
    simp only [Except.map, Except.ok.injEq] at h
    exact ⟨p.1, h.symm⟩

theorem deser_i128_vbig (bs : List Nat) (v : Value)
    (h : BorshSchema.deserialize (.prim .i128) bs = .ok v) : ∃ n, v = .vbig n := by
  simp only [BorshSchema.deserialize, Borsh.deserialize, Borsh.decodeRun, decodeAux,
    schemaSize, decodePrim] at h
  cases h1 : readLE 16 bs with
  | error e => rw [h1] at h; simp [Except.map] at h
  | ok p =>
    rw [h1] at h
    simp only [Except.map, Except.ok.injEq] at h
    exact ⟨toSigned 16 p.1, h.symm⟩

theorem deser_big_vbig (s : Schema) (bs : List Nat) (v : Value)
    (hbig : isBig64or128 s = true) (h : BorshSchema.deserialize s bs = .ok v) :
    ∃ n, v = .vbig n := by
  cases s <;> simp only [isBig64or128] at hbig
  case prim t =>
    cases t <;> simp only [isBig64or128] at hbig
    case u64 => exact deser_u64_vbig bs v h
    case u128 => exact deser_u128_vbig bs v h
    case i64 => exact deser_i64_vbig bs v h
    case i128 => exact deser_i128_vbig bs v h
    all_goals exact Bool.noConfusion hbig
  all_goals exact Bool.noConfusion hbig

theorem encodeUnit (fuel : Nat) (v : Value) (bs : List Nat)
    (h : encodeAux (fuel + 1) (.struct []) v = .ok bs) : bs = [] := by
  cases v <;> simp only [encodeAux, encFieldsE] at h
  case vobj l =>
    injection h with h1
    exact h1.symm
  all_goals exact Except.noConfusion h

theorem unit2_nil (a b : String) : ∀ v bs,
    Borsh.serialize (.struct [(a, .struct []), (b, .struct [])]) v = .ok bs → bs = [] := by
  intro v bs h
  simp only [Borsh.serialize] at h
  cases v
  case vobj l =>
    have h2 : encFieldsE
        (encodeAux (schemaSizeList [(a, Schema.struct []), (b, Schema.struct [])]))
        [(a, Schema.struct []), (b, Schema.struct [])] l = .ok bs := h
    obtain ⟨g, hg⟩ : ∃ g, schemaSizeList [(a, Schema.struct []), (b, Schema.struct [])]
        = g + 1 := ⟨_, rfl⟩
    rw [hg] at h2
    simp only [encFieldsE, bind, Except.bind] at h2
    cases hga : getField a l with
    | none => rw [hga] at h2; exact Except.noConfusion h2
    | some fa =>
      rw [hga] at h2
      dsimp only at h2
      cases he1 : encodeAux (g + 1) (.struct []) fa with
      | error e => rw [he1] at h2; exact Except.noConfusion h2
      | ok b1 =>
        rw [he1] at h2
        dsimp only at h2
        cases hgb : getField b l with
        | none => rw [hgb] at h2; exact Except.noConfusion h2
        | some fb =>
          rw [hgb] at h2
          dsimp only at h2
          cases he2 : encodeAux (g + 1) (.struct []) fb with
          | error e => rw [he2] at h2; exact Except.noConfusion h2
          | ok b2 =>
            rw [he2] at h2
            dsimp only at h2
            injection h2 with h3
            rw [← h3, encodeUnit g fa b1 he1, encodeUnit g fb b2 he2]
            rfl
  all_goals exact Except.noConfusion h

theorem arrP0_generic (t : PrimTag) (len : Nat) (bs : List Nat) (xs : List Value)
    (h : Borsh.deserialize (.arr (.prim t) (some len)) bs = .ok (.varr xs)) :
    BorshSchemaP0.deserialize ⟨.arr (.prim t) (some len), none⟩ bs = .ok (.varr xs) := by
  have hconv : convertAuxP0 2 none (.varr xs) (.arr (.prim t) (some len)) = .varr xs := by
    show Value.varr (xs.map (fun x => convertAuxP0 1 none x (.prim t))) = Value.varr xs
    rw [show (fun x => convertAuxP0 1 none x (.prim t)) = (fun x : Value => x) from
      funext (fun x => convertAuxP0_prim_id 1 x t), List.map_id']
  simp only [BorshSchemaP0.deserialize]
  rw [h]
  simp only [Except.map]
  rw [show schemaSize (Schema.arr (.prim t) (some len)) = 2 from rfl, hconv]

theorem visit_fixed_generic (t : PrimTag) (len : Nat) (xs : List Value)
    (ctx : Option PrimTag) :
    SchemaVisitor.visit (.varr xs) (.arr (.prim t) (some len)) ctx = .ok (.varr xs) := by
  have hx : mapE (fun x => visitAux 1 x (.prim t) (visitCtxOf (.prim t))) xs = .ok xs :=
    mapE_ok_id _ xs (fun x _ => visitAux_prim 1 x t _)
  cases ctx with
  | none =>
    show (mapE (fun x => visitAux 1 x (.prim t) (visitCtxOf (.prim t))) xs).map Value.varr
      = .ok (.varr xs)
    rw [hx]
    rfl
  | some c =>
    show (mapE (fun x => visitAux 1 x (.prim t) (visitCtxOf (.prim t))) xs).map Value.varr
      = .ok (.varr xs)
    rw [hx]
    rfl

theorem visitAux_null (fuel : Nat) (s : Schema) (ctx : Option PrimTag) :
    visitAux fuel .vnull s ctx = .ok .vnull := by
  cases fuel <;> rfl

theorem visitAux_struct_nonobj (fuel : Nat) (flds : List (String × Schema)) (v : Value)
    (ctx : Option PrimTag) (h : jsObjLike v = false) :
    visitAux (fuel + 1) v (.struct flds) ctx = .ok v := by
  cases v <;> first | rfl | exact Bool.noConfusion h

theorem visitAux_arr_nonarr (fuel : Nat) (inner : Schema) (len : Option Nat) (v : Value)
    (ctx : Option PrimTag) (h : ∀ xs, v ≠ .varr xs) :
    visitAux (fuel + 1) v (.arr inner len) ctx = .ok v := by
  cases v <;> first | rfl | exact absurd rfl (h _)

theorem visitAux_map_nonmap (fuel : Nat) (ks vs : Schema) (v : Value)
    (ctx : Option PrimTag) (h : ∀ ps, v ≠ .vmap ps) :
    visitAux (fuel + 1) v (.map ks vs) ctx = .ok v := by
  cases v <;> first | rfl | exact absurd rfl (h _)

theorem visitAux_enum_noentries (fuel : Nat) (vars : List (String × Schema)) (v : Value)
    (ctx : Option PrimTag) (h : entriesOf v = []) :
    visitAux (fuel + 1) v (.enum vars) ctx = .ok v := by
  cases v <;> first
    | rfl
    | (simp only [entriesOf] at h; subst h; rfl)

theorem visitAux_enum_unknown (fuel : Nat) (vars : List (String × Schema))
    (l : List (String × Value)) (name : String) (pv : Value)
    (rest : List (String × Value)) (ctx : Option PrimTag)
    (hl : l = (name, pv) :: rest) (hfind : vars.find? (fun q => q.1 = name) = none) :
    visitAux (fuel + 1) (.vobj l) (.enum vars) ctx = .ok (.vobj l) := by
  subst hl
  simp only [visitAux, entriesOf]
  rw [hfind]
  rfl

theorem encFieldsE_pieces (e : Schema → Value → Except EncErr (List Nat)) :
    ∀ flds l bs, encFieldsE e flds l = .ok bs →
      ∃ pieces, bs = pieces.flatten ∧
        List.Forall₂ (fun (fs : String × Schema) (piece : List Nat) =>
          ∃ fv, getField fs.1 l = some fv ∧ e fs.2 fv = .ok piece) flds pieces := by
  intro flds
  induction flds with
  | nil =>
    intro l bs h
    simp only [encFieldsE, Except.ok.injEq] at h
    exact ⟨[], by rw [← h]; rfl, List.Forall₂.nil⟩
  | cons q rest ih =>
    intro l bs h
    obtain ⟨k, sq⟩ := q
    simp only [encFieldsE, bind, Except.bind] at h
    cases hg : getField k l with
    | none => rw [hg] at h; exact Except.noConfusion h
    | some fv =>
      rw [hg] at h
      dsimp only at h
      cases h1 : e sq fv with
      | error er => rw [h1] at h; exact Except.noConfusion h
      | ok b1 =>
        rw [h1] at h
        dsimp only at h
        cases h2 : encFieldsE e rest l with
        | error er => rw [h2] at h; exact Except.noConfusion h
        | ok b2 =>
          rw [h2] at h
          dsimp only at h
          injection h with h3
          obtain ⟨pieces, hp1, hp2⟩ := ih l b2 h2
          exact ⟨b1 :: pieces, by rw [← h3, hp1]; rfl, List.Forall₂.cons ⟨fv, hg, h1⟩ hp2⟩

/-! ## The claims -/

/-- C1: for every supported schema shape and every well-formed value of that
schema, `deserialize(schema, serialize(schema, value))` succeeds and is
observably equal to the value (`obsEq` allows exactly the numeric-vector
typed-array upgrade and the narrowing of the permissive 64/128-bit integer
input forms to the big-integer output form). -/
theorem claim_C1 (s : Schema) (v : Value) (hwf : WF s v = true) :
    ∃ bs w, BorshSchema.serialize s v = .ok bs ∧
      BorshSchema.deserialize s bs = .ok w ∧ obsEq v w = true := by
  obtain ⟨bs, he, hd⟩ := serialize_deserialize_src s v hwf
  exact ⟨bs, norm s v, he, hd, obsEq_norm s v hwf⟩

theorem claim_C1_wit :
    ∃ bs w, BorshSchema.serialize BorshSchema.u8 (.vnum 7) = .ok bs ∧
      BorshSchema.deserialize BorshSchema.u8 bs = .ok w ∧ obsEq (.vnum 7) w = true :=
  claim_C1 BorshSchema.u8 (.vnum 7) (by decide)

/-- C2 (amended): the typed-array reconstruction of the deserialize pipeline
rebuilds the bit-width/signedness-correct typed array for a numeric vector at
the top level (first conjunct, for every recognized numeric element kind and
every successfully decoded buffer of in-range bytes), and inside struct
fields, map values and enum variant payloads (remaining conjuncts); it does
NOT apply inside the elements of fixed arrays (see the counterexample). -/
theorem claim_C2 :
    (∀ t bs xs, isConverterKind t = true → (∀ b ∈ bs, b < 256) →
      Borsh.deserialize (.arr (.prim t) none) bs = .ok (.varr xs) →
      (BorshSchemaP0.Vec ⟨.prim t, none⟩).deserialize bs = .ok (.vtyped t xs)) ∧
    (BorshSchemaP0.Struct [("x", BorshSchemaP0.Vec BorshSchemaP0.u16)]).deserialize
      [1, 0, 0, 0, 5, 0] = .ok (.vobj [("x", .vtyped .u16 [.vnum 5])]) ∧
    (BorshSchemaP0.HashMap BorshSchemaP0.u8 (BorshSchemaP0.Vec BorshSchemaP0.u16)).deserialize
      [1, 0, 0, 0, 7, 1, 0, 0, 0, 5, 0] = .ok (.vmap [(.vnum 7, .vtyped .u16 [.vnum 5])]) ∧
    (BorshSchemaP0.Enum [("V", BorshSchemaP0.Vec BorshSchemaP0.u16)]).deserialize
      [0, 1, 0, 0, 0, 5, 0] = .ok (.vobj [("V", .vtyped .u16 [.vnum 5])]) :=
  ⟨fun t bs xs ht hb h => vecP0_top t bs xs ht hb h, by rfl, by rfl, by rfl⟩

/-- C2 counterexample: a numeric vector nested inside a fixed array is left as
a plain nested array by the deserialize pipeline, not upgraded to a typed
array, contradicting the claim that reconstruction applies inside the elements
of fixed arrays. -/
theorem claim_C2_cex :
    (BorshSchemaP0.Array (BorshSchemaP0.Vec BorshSchemaP0.u16) 1).deserialize
      [1, 0, 0, 0, 5, 0] = .ok (.varr [.varr [.vnum 5]]) ∧
    (BorshSchemaP0.Array (BorshSchemaP0.Vec BorshSchemaP0.u16) 1).deserialize
      [1, 0, 0, 0, 5, 0] ≠ .ok (.varr [.vtyped .u16 [.vnum 5]]) := by
  have heval : (BorshSchemaP0.Array (BorshSchemaP0.Vec BorshSchemaP0.u16) 1).deserialize
      [1, 0, 0, 0, 5, 0] = .ok (.varr [.varr [.vnum 5]]) := by rfl
  refine ⟨heval, ?_⟩
  intro hc
  rw [heval] at hc
  simp at hc

/-- C3: encoding an enum value whose variant is declared at zero-based index
`i` writes one discriminant byte `i` followed by the payload encoding;
decoding a buffer whose first byte is `i` with `i < n` decodes the payload of
the variant at index `i` keyed by its declared name; a discriminant at or
beyond the variant count fails with `InvalidEnumDiscriminant`; and concretely
`encode(Enum({Pending:Unit, Fulfilled:Unit, Rejected:Unit}), {Rejected:{}})`
is exactly `[0x02]`, whose decode is `{Rejected:{}}`. -/
theorem claim_C3 :
    (∀ vars name pv i ps bs, vars.length ≤ 256 →
      findVariant name vars = some (i, ps) →
      Borsh.serialize (BorshSchema.Enum vars) (.vobj [(name, pv)]) = .ok bs →
      ∃ payload, Borsh.serialize ps pv = .ok payload ∧ bs = i :: payload) ∧
    (∀ vars i name ps bs, vars[i]? = some (name, ps) →
      Borsh.decodeRun (BorshSchema.Enum vars) (i :: bs)
        = (Borsh.decodeRun ps bs).map (fun p => (Value.vobj [(name, p.1)], p.2))) ∧
    (∀ vars i bs, vars.length ≤ i →
      Borsh.decodeRun (BorshSchema.Enum vars) (i :: bs) = .error .invalidEnumDiscriminant) ∧
    BorshSchema.serialize (BorshSchema.Enum [("Pending", BorshSchema.Unit),
      ("Fulfilled", BorshSchema.Unit), ("Rejected", BorshSchema.Unit)])
      (.vobj [("Rejected", .vobj [])]) = .ok [2] ∧
    BorshSchema.deserialize (BorshSchema.Enum [("Pending", BorshSchema.Unit),
      ("Fulfilled", BorshSchema.Unit), ("Rejected", BorshSchema.Unit)]) [2]
      = .ok (.vobj [("Rejected", .vobj [])]) :=
  ⟨fun vars name pv i ps bs hlen hfv h => enum_encode_disc vars name pv i ps bs hlen hfv h,
   fun vars i name ps bs hv => enum_decode_disc vars i name ps bs hv,
   fun vars i bs hlen => enum_decode_bad vars i bs hlen,
   by rfl, by rfl⟩

/-- C4: for the four 64/128-bit integer schemas, encode accepts the value as a
native bigint, a decimal string, or an integral number (`bigIntOf` is exactly
that acceptance), normalizes it to a bigint before emission so that equal
numeric values in different representations give byte-identical output;
decode of those four primitives always yields a bigint; and concretely
`encode(u128, "340282366920938463463374607431768211455")` equals
`encode(u128, 2^128 - 1)`, sixteen `0xFF` bytes. -/
theorem claim_C4 :
    (∀ s v n, isBig64or128 s = true → bigIntOf v = some n →
      BorshSchema.serialize s v = BorshSchema.serialize s (.vbig n)) ∧
    (∀ s bs v, isBig64or128 s = true → BorshSchema.deserialize s bs = .ok v →
      ∃ n, v = .vbig n) ∧
    BorshSchema.serialize BorshSchema.u128 (.vstr "340282366920938463463374607431768211455")
      = BorshSchema.serialize BorshSchema.u128 (.vbig (2 ^ 128 - 1)) ∧
    BorshSchema.serialize BorshSchema.u128 (.vbig (2 ^ 128 - 1))
      = .ok (List.replicate 16 255) := by
  refine ⟨?_, ?_, ?_, ?_⟩
  · intro s v n hbig hv
    rw [serialize_big_forms s v n hbig hv, serialize_big_forms s (.vbig n) n hbig rfl]
  · intro s bs v hbig h
    exact deser_big_vbig s bs v hbig h
  · rfl
  · rfl

/-- C5: for every schema and well-formed value, appending arbitrary trailing
bytes to the encoding leaves decoding successful with the value decoded from
the prefix: the decoder consumes only the schema-prescribed byte count and
never enforces whole-buffer consumption (shown for the core decode primitive
and for the wrapper `deserialize`). -/
theorem claim_C5 (s : Schema) (v : Value) (hwf : WF s v = true) :
    ∃ bs, Borsh.serialize s v = .ok bs ∧
      ∀ extra, Borsh.deserialize s (bs ++ extra) = .ok (norm s v) ∧
        BorshSchema.deserialize s (bs ++ extra) = BorshSchema.deserialize s bs := by
  obtain ⟨bs, he, hd⟩ := borsh_rt s v hwf
  have hd0 := hd []
  rw [List.append_nil] at hd0
  refine ⟨bs, he, fun extra => ⟨?_, ?_⟩⟩
  · simp only [Borsh.deserialize, hd extra]
    rfl
  · simp only [BorshSchema.deserialize, Borsh.deserialize, hd extra, hd0]
    rfl

theorem claim_C5_wit :
    ∃ bs, Borsh.serialize BorshSchema.u8 (.vnum 7) = .ok bs ∧
      ∀ extra, Borsh.deserialize BorshSchema.u8 (bs ++ extra) = .ok (norm BorshSchema.u8 (.vnum 7)) ∧
        BorshSchema.deserialize BorshSchema.u8 (bs ++ extra)
          = BorshSchema.deserialize BorshSchema.u8 bs :=
  claim_C5 BorshSchema.u8 (.vnum 7) (by decide)

/-- C6: decoding any strict prefix of a valid encoding fails with
`UnexpectedEndOfBuffer` (and in particular never returns a value), both for
the core decode primitive and for the wrapper `deserialize`. -/
theorem claim_C6 (s : Schema) (v : Value) (bs : List Nat) (k : Nat)
    (hwf : WF s v = true) (henc : Borsh.serialize s v = .ok bs) (hk : k < bs.length) :
    Borsh.deserialize s (bs.take k) = .error .unexpectedEndOfBuffer ∧
    BorshSchema.deserialize s (bs.take k) = .error .unexpectedEndOfBuffer := by
  have h := truncation_eof s v bs k hwf henc hk
  refine ⟨?_, ?_⟩
  · simp only [Borsh.deserialize, h]
    rfl
  · simp only [BorshSchema.deserialize, Borsh.deserialize, h]
    rfl

theorem claim_C6_wit :
    Borsh.deserialize BorshSchema.u16 ([5, 0].take 1) = .error .unexpectedEndOfBuffer ∧
    BorshSchema.deserialize BorshSchema.u16 ([5, 0].take 1) = .error .unexpectedEndOfBuffer :=
  claim_C6 BorshSchema.u16 (.vnum 5) [5, 0] 1 (by decide) (by rfl) (by decide)

/-- C7 (amended): struct encoding is the concatenation of the fields'
encodings in schema declaration order (first conjunct, for every field list,
with each piece the encoding of the named field's value); field order is
observable on the wire: there EXIST two struct schemas over the same
(name, schema) pairs in different orders and a value on which the encodings
differ, e.g. `{a:u8, b:u16}` versus the reversed order on `{a:1, b:2}`
(`[1,2,0]` vs `[2,0,1]`).  The universally quantified form of the original
claim — that different orders ALWAYS admit a distinguishing value — fails for
zero-width fields (see the counterexample). -/
theorem claim_C7 :
    (∀ flds l fuel bs, encodeAux (fuel + 1) (.struct flds) (.vobj l) = .ok bs →
      ∃ pieces, bs = pieces.flatten ∧
        List.Forall₂ (fun (fs : String × Schema) (piece : List Nat) =>
          ∃ fv, getField fs.1 l = some fv ∧ encodeAux fuel fs.2 fv = .ok piece)
          flds pieces) ∧
    Borsh.serialize (BorshSchema.Struct [("a", BorshSchema.u8), ("b", BorshSchema.u16)])
      (.vobj [("a", .vnum 1), ("b", .vnum 2)]) = .ok [1, 2, 0] ∧
    Borsh.serialize (BorshSchema.Struct [("b", BorshSchema.u16), ("a", BorshSchema.u8)])
      (.vobj [("a", .vnum 1), ("b", .vnum 2)]) = .ok [2, 0, 1] ∧
    ([1, 2, 0] : List Nat) ≠ [2, 0, 1] := by
  refine ⟨?_, by rfl, by rfl, by decide⟩
  intro flds l fuel bs h
  exact encFieldsE_pieces (encodeAux fuel) flds l bs h

/-- C7 counterexample: for the two orders of the field set
`{a: Unit, b: Unit}` no value distinguishes the encodings — both serializers
return `[]` whenever they succeed — so "for two struct schemas over the same
field set in different orders there exists a value on which the encodings
differ" is false as a universal statement. -/
theorem claim_C7_cex :
    ¬ ∃ v b1 b2,
      Borsh.serialize (BorshSchema.Struct [("a", BorshSchema.Unit), ("b", BorshSchema.Unit)]) v
        = .ok b1 ∧
      Borsh.serialize (BorshSchema.Struct [("b", BorshSchema.Unit), ("a", BorshSchema.Unit)]) v
        = .ok b2 ∧
      b1 ≠ b2 := by
  rintro ⟨v, b1, b2, h1, h2, hne⟩
  exact hne ((unit2_nil "a" "b" v b1 h1).trans (unit2_nil "b" "a" v b2 h2).symm)

/-- C8: fixed arrays of numeric primitives stay generic sequences after the
post-decode reconstruction: the deserialize pipeline leaves a decoded fixed
array of numbers as a plain array, and the schema visitor maps a plain array
through the elements (primitives pass through) under any context — only
variable-length vectors receive the typed-array treatment. -/
theorem claim_C8 :
    (∀ t len bs xs, Borsh.deserialize (.arr (.prim t) (some len)) bs = .ok (.varr xs) →
      (BorshSchemaP0.Array ⟨.prim t, none⟩ len).deserialize bs = .ok (.varr xs)) ∧
    (∀ t len xs ctx, SchemaVisitor.visit (.varr xs) (.arr (.prim t) (some len)) ctx
      = .ok (.varr xs)) :=
  ⟨fun t len bs xs h => arrP0_generic t len bs xs h,
   fun t len xs ctx => visit_fixed_generic t len xs ctx⟩

/-- C9 (amended): the schema visitor passes mismatched shapes through
unchanged — a `null` value under any schema, a non-object where a struct is
expected, a non-array where an array is expected, a non-`Map` where a map is
expected, and an enum value with no entries or whose first entry's key matches
no declared variant.  The totality half of the original claim — that the
visitor never throws — is false: the typed-array converters throw on elements
of the wrong numeric class (see the counterexample). -/
theorem claim_C9 :
    (∀ s ctx, SchemaVisitor.visit .vnull s ctx = .ok .vnull) ∧
    (∀ flds v ctx, jsObjLike v = false →
      SchemaVisitor.visit v (.struct flds) ctx = .ok v) ∧
    (∀ inner len v ctx, (∀ xs, v ≠ .varr xs) →
      SchemaVisitor.visit v (.arr inner len) ctx = .ok v) ∧
    (∀ ks vs v ctx, (∀ ps, v ≠ .vmap ps) →
      SchemaVisitor.visit v (.map ks vs) ctx = .ok v) ∧
    (∀ vars v ctx, entriesOf v = [] →
      SchemaVisitor.visit v (.enum vars) ctx = .ok v) ∧
    (∀ vars l name pv rest ctx, l = (name, pv) :: rest →
      vars.find? (fun q => q.1 = name) = none →
      SchemaVisitor.visit (.vobj l) (.enum vars) ctx = .ok (.vobj l)) :=
  ⟨fun s ctx => visitAux_null (schemaSize s) s ctx,
   fun flds v ctx h => visitAux_struct_nonobj (schemaSizeList flds) flds v ctx h,
   fun inner len v ctx h => visitAux_arr_nonarr (schemaSize inner) inner len v ctx h,
   fun ks vs v ctx h => visitAux_map_nonmap (schemaSize ks + schemaSize vs) ks vs v ctx h,
   fun vars v ctx h => visitAux_enum_noentries (schemaSizeList vars) vars v ctx h,
   fun vars l name pv rest ctx hl hf =>
     visitAux_enum_unknown (schemaSizeList vars) vars l name pv rest ctx hl hf⟩

/-- C9 counterexample: the visitor is not total — visiting the plain object
`{x: [1]}` against `Struct {x: Vec(i64)}` reaches the `BigInt64Array`
converter with a number element and throws a `TypeError` instead of returning
a result unchanged. -/
theorem claim_C9_cex :
    SchemaVisitor.visit (.vobj [("x", .varr [.vnum 1])])
      (.struct [("x", .arr (.prim .i64) none)]) none = .error "TypeError" := by
  rfl

/-- C10: the numeric kinds recorded for typed-array reconstruction are exactly
the nine `{u8, u16, u32, i8, i16, i32, i64, f32, f64}`: `Vec` of any other
element schema (including `u64`, `u128`, `i128` and every composite) records
no metadata, decoding `Vec(u64)` therefore yields a plain array of bigints
while `Vec(i64)` yields the 64-bit signed typed array — the `u64`/`i64`
treatment is asymmetric. -/
theorem claim_C10 :
    (∀ t, isConverterKind t = true ↔
      (t = .u8 ∨ t = .u16 ∨ t = .u32 ∨ t = .i8 ∨ t = .i16 ∨ t = .i32 ∨
        t = .i64 ∨ t = .f32 ∨ t = .f64)) ∧
    (∀ t, (BorshSchemaP0.Vec ⟨.prim t, none⟩).typedArrayType
      = if isConverterKind t then some t else none) ∧
    (∀ inner : BorshSchemaP0, (∀ t, inner.schema ≠ .prim t) →
      (BorshSchemaP0.Vec inner).typedArrayType = none) ∧
    (BorshSchemaP0.Vec BorshSchemaP0.u64).typedArrayType = none ∧
    (BorshSchemaP0.Vec BorshSchemaP0.u128).typedArrayType = none ∧
    (BorshSchemaP0.Vec BorshSchemaP0.i128).typedArrayType = none ∧
    (BorshSchemaP0.Vec BorshSchemaP0.i64).typedArrayType = some .i64 ∧
    (BorshSchemaP0.Vec BorshSchemaP0.u64).deserialize
      [1, 0, 0, 0, 5, 0, 0, 0, 0, 0, 0, 0] = .ok (.varr [.vbig 5]) ∧
    (BorshSchemaP0.Vec BorshSchemaP0.i64).deserialize
      [1, 0, 0, 0, 5, 0, 0, 0, 0, 0, 0, 0] = .ok (.vtyped .i64 [.vbig 5]) := by
  refine ⟨fun t => by cases t <;> decide, fun t => by cases t <;> rfl, ?_,
    by rfl, by rfl, by rfl, by rfl, by rfl, by rfl⟩
  intro inner h
  rw [show (BorshSchemaP0.Vec inner).typedArrayType = vecTypedArrayType inner.schema from rfl]
  cases hs : inner.schema with
  | prim t => exact absurd hs (h t)
  | option a => rfl
  | arr a b => rfl
  | set a => rfl
  | map a b => rfl
  | struct a => rfl
  | enum a => rfl
